/-
Verification of the correction-detection core of the "correct-habits"
repository (hooks/analyze-corrections.js detector, session-start
prioritizer).  The JavaScript source is shallowly embedded: messages are
`List Char`, the JS regular expressions of the signal tables are embedded
as terms of a small regex syntax `RE` (or, for the capture-group patterns,
as dedicated deterministic scanners matching the JS engine's behaviour on
those patterns), JS numbers carrying the weights are `ℚ`, timestamps are
`ℤ` milliseconds, and the file reads are modelled by an explicit
`Option (Option α)` argument (`none` = file missing, `some none` = file
present but unparsable JSON, `some (some a)` = parsed content `a`).
-/
import Mathlib

set_option maxRecDepth 10000

/-! ## Character classes (JS regex classes, ASCII as the source's data uses) -/

/-- JS `\w`: `[A-Za-z0-9_]`. -/
def isWordCharB (c : Char) : Bool :=
  (('a' ≤ c && c ≤ 'z') || ('A' ≤ c && c ≤ 'Z') || ('0' ≤ c && c ≤ '9') || c = '_')

/-- JS `\s` (the ASCII part: space, tab, newline, carriage return, vertical
tab, form feed). -/
def isSpaceChar (c : Char) : Bool :=
  (c = ' ' || c = '\t' || c = '\n' || c = '\r' || c = '\x0b' || c = '\x0c')

def backtickChar : Char := '`'

def apostropheChar : Char := '\''

def dquoteChar : Char := '\"'

/-- The class `[`'"]` used around quoted identifiers. -/
def isQuoteChar (c : Char) : Bool :=
  (c = backtickChar || c = apostropheChar || c = dquoteChar)

/-- The class `[\w\-_.]` of quoted-identifier tokens. -/
def isTokChar (c : Char) : Bool :=
  (isWordCharB c || c = '-' || c = '.')

/-- The class `[{};=>\[\]().]` of `hasCodeIndicators` in `getCodeBoost`. -/
def isCodeIndicator (c : Char) : Bool :=
  (c = '{' || c = '}' || c = ';' || c = '=' || c = '>' || c = '[' || c = ']' ||
   c = '(' || c = ')' || c = '.')

def isWordOpt : Option Char → Bool
  | none => false
  | some c => isWordCharB c

def nextIsWord : List Char → Bool
  | [] => false
  | c :: _ => isWordCharB c

def lowerList (s : List Char) : List Char := s.map Char.toLower

/-! ## A small regex syntax for the boolean signal patterns

`RE` covers exactly the features the source's boolean regexes use:
character classes, sequencing, alternation, `?`, `*`/`+` on a class, and
the word boundary `\b`.  Matching carries the previously consumed
character so `\b` can be decided; `reRun` returns every (last consumed
char, remaining input) state reachable by consuming a prefix, and
`reSearch` looks for a match at each start position — the JS
`RegExp.test` semantics (match anywhere). -/

inductive RE where
  | eps : RE
  | cls (p : Char → Bool) : RE
  | seq (a b : RE) : RE
  | alt (a b : RE) : RE
  | opt (r : RE) : RE
  | starCls (p : Char → Bool) : RE
  | wb : RE

/-- All states reachable by the star of a single-character class
(greedy first; order is irrelevant for the boolean tests). -/
def starRun (p : Char → Bool) : Option Char → List Char → List (Option Char × List Char)
  | prev, [] => [(prev, [])]
  | prev, c :: cs =>
      if p c then starRun p (some c) cs ++ [(prev, c :: cs)] else [(prev, c :: cs)]

def reRun : RE → Option Char → List Char → List (Option Char × List Char)
  | .eps, prev, s => [(prev, s)]
  | .cls p, prev, s =>
      match s with
      | [] => []
      | c :: cs => if p c then [(some c, cs)] else []
  | .seq a b, prev, s => (reRun a prev s).flatMap fun st => reRun b st.1 st.2
  | .alt a b, prev, s => reRun a prev s ++ reRun b prev s
  | .opt r, prev, s => reRun r prev s ++ [(prev, s)]
  | .starCls p, prev, s => starRun p prev s
  | .wb, prev, s => if isWordOpt prev != nextIsWord s then [(prev, s)] else []

/-- Is there a match of `r` starting exactly here? -/
def reHit (r : RE) (prev : Option Char) (s : List Char) : Bool :=
  !(reRun r prev s).isEmpty

/-- Is there a match of `r` starting at this or any later position? -/
def reSearch (r : RE) : Option Char → List Char → Bool
  | prev, [] => reHit r prev []
  | prev, c :: cs => reHit r prev (c :: cs) || reSearch r (some c) cs

/-- JS `regex.test(message)`. -/
def reTest (r : RE) (s : List Char) : Bool := reSearch r none s

/-! ### Helpers to write the source's regexes as `RE` terms -/

/-- A single character, case-insensitively (the source's regexes all carry
the `i` flag); `a` is given in lowercase. -/
def chC (a : Char) : RE := .cls fun c => c.toLower = a

def litRE : List Char → RE
  | [] => .eps
  | c :: cs => .seq (chC c) (litRE cs)

/-- A case-insensitive literal. -/
def strRE (w : String) : RE := litRE w.toList

def altL : List RE → RE
  | [] => .cls fun _ => false
  | [r] => r
  | r :: rs => .alt r (altL rs)

/-- `\s+`. -/
def sp1RE : RE := .seq (.cls isSpaceChar) (.starCls isSpaceChar)

/-- `\s*`. -/
def spStarRE : RE := .starCls isSpaceChar

/-- `\w+`. -/
def wplusRE : RE := .seq (.cls isWordCharB) (.starCls isWordCharB)

/-- `don'?t`. -/
def dontRE : RE :=
  .seq (strRE "don") (.seq (.opt (.cls fun c => c = apostropheChar)) (chC 't'))

/-- `that'?s`. -/
def thatsRE : RE :=
  .seq (strRE "that") (.seq (.opt (.cls fun c => c = apostropheChar)) (chC 's'))

/-! ## Signal tables (from the detector source)

`skipSignals`, `correctionSignals` and `contextAwareSignals` are the three
tables of the detector; each regex below is the source's, feature for
feature. -/

inductive PatternCategory where
  | naming
  | errorHandling
  | architecture
  | testing
  | style
  | imports
  | other
deriving DecidableEq

/-- `/just\s*(this\s*)?(once|time|here|case)/i` -/
def reSkip1 : RE :=
  .seq (strRE "just") (.seq spStarRE (.seq (.opt (.seq (strRE "this") spStarRE))
    (altL [strRE "once", strRE "time", strRE "here", strRE "case"])))

/-- `/only\s*(for\s*)?(this|here|now)/i` -/
def reSkip2 : RE :=
  .seq (strRE "only") (.seq spStarRE (.seq (.opt (.seq (strRE "for") spStarRE))
    (altL [strRE "this", strRE "here", strRE "now"])))

/-- `/this\s*(specific|particular)\s*(case|instance|time)/i` -/
def reSkip3 : RE :=
  .seq (strRE "this") (.seq spStarRE (.seq (altL [strRE "specific", strRE "particular"])
    (.seq spStarRE (altL [strRE "case", strRE "instance", strRE "time"]))))

/-- `/don'?t\s*(remember|learn|save)\s*(this|that)/i` -/
def reSkip4 : RE :=
  .seq dontRE (.seq spStarRE (.seq (altL [strRE "remember", strRE "learn", strRE "save"])
    (.seq spStarRE (altL [strRE "this", strRE "that"]))))

/-- `/exception/i` -/
def reSkip5 : RE := strRE "exception"

/-- `/one-?off/i` -/
def reSkip6 : RE :=
  .seq (strRE "one") (.seq (.opt (.cls fun c => c = '-')) (strRE "off"))

/-- `/temporary|temp\s+fix/i` -/
def reSkip7 : RE :=
  .alt (strRE "temporary") (.seq (strRE "temp") (.seq sp1RE (strRE "fix")))

def skipSignals : List RE :=
  [reSkip1, reSkip2, reSkip3, reSkip4, reSkip5, reSkip6, reSkip7]

/-- The skip detector: `skipSignals.some(regex => regex.test(message))`. -/
def skipMatches (message : List Char) : Bool :=
  skipSignals.any fun r => reTest r message

structure CorrectionSignal where
  pattern : RE
  weight : ℚ
  categoryHint : Option PatternCategory := none

/-- The weighted correction-signal table (plain signals). -/
def correctionSignals : List CorrectionSignal := [
  -- /\b(we|our)\s+(always|never)\b/i, 0.95
  { pattern := .seq .wb (.seq (altL [strRE "we", strRE "our"])
      (.seq sp1RE (.seq (altL [strRE "always", strRE "never"]) .wb))),
    weight := 95/100 },
  -- /\b(our|the)\s+(convention|standard|pattern|style|approach)\b/i, 0.9
  { pattern := .seq .wb (.seq (altL [strRE "our", strRE "the"]) (.seq sp1RE
      (.seq (altL [strRE "convention", strRE "standard", strRE "pattern",
                   strRE "style", strRE "approach"]) .wb))),
    weight := 9/10 },
  -- /\b(company|team|project)\s+(standard|convention|rule)/i, 0.9
  { pattern := .seq .wb (.seq (altL [strRE "company", strRE "team", strRE "project"])
      (.seq sp1RE (altL [strRE "standard", strRE "convention", strRE "rule"]))),
    weight := 9/10 },
  -- /\bwe\s+(don'?t|do not)\s+(use|allow|permit)/i, 0.85
  { pattern := .seq .wb (.seq (strRE "we") (.seq sp1RE
      (.seq (altL [dontRE, strRE "do not"]) (.seq sp1RE
        (altL [strRE "use", strRE "allow", strRE "permit"]))))),
    weight := 85/100 },
  -- /\balways\s+use\b/i, 0.8
  { pattern := .seq .wb (.seq (strRE "always") (.seq sp1RE (.seq (strRE "use") .wb))),
    weight := 8/10 },
  -- /\bnever\s+use\b/i, 0.8
  { pattern := .seq .wb (.seq (strRE "never") (.seq sp1RE (.seq (strRE "use") .wb))),
    weight := 8/10 },
  -- /\binstead\s+(of|use)\b/i, 0.7
  { pattern := .seq .wb (.seq (strRE "instead") (.seq sp1RE
      (.seq (altL [strRE "of", strRE "use"]) .wb))),
    weight := 7/10 },
  -- /\bprefer\s+\w+\s+(over|to|instead)/i, 0.7
  { pattern := .seq .wb (.seq (strRE "prefer") (.seq sp1RE (.seq wplusRE
      (.seq sp1RE (altL [strRE "over", strRE "to", strRE "instead"]))))),
    weight := 7/10 },
  -- /\bshould\s+(always|never)\b/i, 0.65
  { pattern := .seq .wb (.seq (strRE "should") (.seq sp1RE
      (.seq (altL [strRE "always", strRE "never"]) .wb))),
    weight := 65/100 },
  -- /\bi\s+(always|never|prefer)\b/i, 0.6
  { pattern := .seq .wb (.seq (strRE "i") (.seq sp1RE
      (.seq (altL [strRE "always", strRE "never", strRE "prefer"]) .wb))),
    weight := 6/10 },
  -- /\bthat'?s\s+(not|wrong|incorrect)\b/i, 0.55
  { pattern := .seq .wb (.seq thatsRE (.seq sp1RE
      (.seq (altL [strRE "not", strRE "wrong", strRE "incorrect"]) .wb))),
    weight := 55/100 },
  -- /\bwrong\s+(approach|pattern|way)\b/i, 0.55
  { pattern := .seq .wb (.seq (strRE "wrong") (.seq sp1RE
      (.seq (altL [strRE "approach", strRE "pattern", strRE "way"]) .wb))),
    weight := 55/100 },
  -- /\bdon'?t\s+(do|use|write)\s+(it\s+)?(like\s+)?that\b/i, 0.5
  { pattern := .seq .wb (.seq dontRE (.seq sp1RE
      (.seq (altL [strRE "do", strRE "use", strRE "write"]) (.seq sp1RE
        (.seq (.opt (.seq (strRE "it") sp1RE)) (.seq (.opt (.seq (strRE "like") sp1RE))
          (.seq (strRE "that") .wb))))))),
    weight := 5/10 },
  -- /\bplease\s+(don'?t|change|use)\b/i, 0.35
  { pattern := .seq .wb (.seq (strRE "please") (.seq sp1RE
      (.seq (altL [dontRE, strRE "change", strRE "use"]) .wb))),
    weight := 35/100 },
  -- /\bshould\s+(be|have|use)\b/i, 0.3
  { pattern := .seq .wb (.seq (strRE "should") (.seq sp1RE
      (.seq (altL [strRE "be", strRE "have", strRE "use"]) .wb))),
    weight := 3/10 },
  -- /\bno,?\s*(actually|don'?t)\b/i, 0.3
  { pattern := .seq .wb (.seq (strRE "no") (.seq (.opt (.cls fun c => c = ','))
      (.seq spStarRE (.seq (altL [strRE "actually", dontRE]) .wb)))),
    weight := 3/10 },
  -- /\bfix\s+(this|that|the)\b/i, 0.2
  { pattern := .seq .wb (.seq (strRE "fix") (.seq sp1RE
      (.seq (altL [strRE "this", strRE "that", strRE "the"]) .wb))),
    weight := 2/10 },
  -- /\b(name|naming|call\s+it|rename)\b/i, 0.4, naming
  { pattern := .seq .wb (.seq (altL [strRE "name", strRE "naming",
      .seq (strRE "call") (.seq sp1RE (strRE "it")), strRE "rename"]) .wb),
    weight := 4/10, categoryHint := some .naming },
  -- /\b(import|require|from\s+['"])/i, 0.4, imports
  { pattern := .seq .wb (altL [strRE "import", strRE "require",
      .seq (strRE "from") (.seq sp1RE
        (.cls fun c => c = apostropheChar || c = dquoteChar))]),
    weight := 4/10, categoryHint := some .imports },
  -- /\b(test|spec|describe|it\s*\()/i, 0.4, testing
  { pattern := .seq .wb (altL [strRE "test", strRE "spec", strRE "describe",
      .seq (strRE "it") (.seq spStarRE (.cls fun c => c = '('))]),
    weight := 4/10, categoryHint := some .testing },
  -- /\b(try|catch|throw|error|exception)\b/i, 0.35, error-handling
  { pattern := .seq .wb (.seq (altL [strRE "try", strRE "catch", strRE "throw",
      strRE "error", strRE "exception"]) .wb),
    weight := 35/100, categoryHint := some .errorHandling },
  -- /\b(folder|directory|structure|organize)/i, 0.35, architecture
  { pattern := .seq .wb (altL [strRE "folder", strRE "directory",
      strRE "structure", strRE "organize"]),
    weight := 35/100, categoryHint := some .architecture },
  -- /\b(format|indent|spacing|style|prettier|eslint)/i, 0.35, style
  { pattern := .seq .wb (altL [strRE "format", strRE "indent", strRE "spacing",
      strRE "style", strRE "prettier", strRE "eslint"]),
    weight := 35/100, categoryHint := some .style }]

/-! ## Deterministic scanners for the capture-group patterns

The four context-aware patterns with a capture group (and the extractor's
two extra ones) are deterministic for the JS engine: every greedy run
(`\s+`, `[\w\-_.]+`, `'?`) is followed by a character its class excludes,
so backtracking never changes the outcome.  They are embedded as
maximal-munch scanners.  `ScanRes.incomplete` records that the scan ran
out of input while it could still have continued — the distinction `fail`
vs `incomplete` carries the append-stability used for claim C8. -/

inductive ScanRes (α : Type) where
  | fail : ScanRes α
  | incomplete : ScanRes α
  | done (val : α) (rest : List Char) : ScanRes α
deriving DecidableEq

def ScanRes.andThen : ScanRes α → (α → List Char → ScanRes β) → ScanRes β
  | .fail, _ => .fail
  | .incomplete, _ => .incomplete
  | .done a rest, f => f a rest

/-- A case-insensitive literal (given in lowercase). -/
def litScan : List Char → List Char → ScanRes Unit
  | [], s => .done () s
  | _ :: _, [] => .incomplete
  | c :: cs, x :: xs => if x.toLower = c then litScan cs xs else .fail

/-- `\s*` after at least the mandatory structure: consume the maximal run. -/
def spTail : List Char → ScanRes Unit
  | [] => .incomplete
  | c :: cs => if isSpaceChar c then spTail cs else .done () (c :: cs)

/-- `\s+`: at least one space, maximal-munch. -/
def sp1Scan : List Char → ScanRes Unit
  | [] => .incomplete
  | c :: cs => if isSpaceChar c then spTail cs else .fail

/-- `'?` inside `don'?t`. -/
def optAposScan : List Char → ScanRes Unit
  | [] => .incomplete
  | c :: cs => if c = apostropheChar then .done () cs else .done () (c :: cs)

/-- One opening quote from the class used around identifiers. -/
def quoteScan : List Char → ScanRes Unit
  | [] => .incomplete
  | c :: cs => if isQuoteChar c then .done () cs else .fail

/-- `([\w\-_.]+)` followed by the closing quote; yields the capture. -/
def tokQuoteScan (s : List Char) : ScanRes (List Char) :=
  match s.dropWhile isTokChar with
  | [] => .incomplete
  | c :: cs =>
      if (s.takeWhile isTokChar).isEmpty then .fail
      else if isQuoteChar c then .done (s.takeWhile isTokChar) cs else .fail

/-- Body of `/instead\s+of\s+[`'"]([\w\-_.]+)[`'"]/i`. -/
def insteadOfCore (s : List Char) : ScanRes (List Char) :=
  (litScan "instead".toList s).andThen fun _ r1 =>
  (sp1Scan r1).andThen fun _ r2 =>
  (litScan "of".toList r2).andThen fun _ r3 =>
  (sp1Scan r3).andThen fun _ r4 =>
  (quoteScan r4).andThen fun _ r5 =>
  tokQuoteScan r5

/-- Body of `/use\s+[`'"]([\w\-_.]+)[`'"]\s+instead/i`. -/
def useInsteadCore (s : List Char) : ScanRes (List Char) :=
  (litScan "use".toList s).andThen fun _ r1 =>
  (sp1Scan r1).andThen fun _ r2 =>
  (quoteScan r2).andThen fun _ r3 =>
  (tokQuoteScan r3).andThen fun tok r4 =>
  (sp1Scan r4).andThen fun _ r5 =>
  (litScan "instead".toList r5).andThen fun _ r6 => .done tok r6

/-- Body of `/don'?t\s+use\s+[`'"]([\w\-_.]+)[`'"]/i`. -/
def dontUseCore (s : List Char) : ScanRes (List Char) :=
  (litScan "don".toList s).andThen fun _ r1 =>
  (optAposScan r1).andThen fun _ r2 =>
  (litScan "t".toList r2).andThen fun _ r3 =>
  (sp1Scan r3).andThen fun _ r4 =>
  (litScan "use".toList r4).andThen fun _ r5 =>
  (sp1Scan r5).andThen fun _ r6 =>
  (quoteScan r6).andThen fun _ r7 =>
  tokQuoteScan r7

/-- Body of `/change\s+[`'"]([\w\-_.]+)[`'"]\s+to\s+[`'"]([\w\-_.]+)[`'"]/i`
(the context signal; the check uses the first capture). -/
def changeToCore (s : List Char) : ScanRes (List Char) :=
  (litScan "change".toList s).andThen fun _ r1 =>
  (sp1Scan r1).andThen fun _ r2 =>
  (quoteScan r2).andThen fun _ r3 =>
  (tokQuoteScan r3).andThen fun tok r4 =>
  (sp1Scan r4).andThen fun _ r5 =>
  (litScan "to".toList r5).andThen fun _ r6 =>
  (sp1Scan r6).andThen fun _ r7 =>
  (quoteScan r7).andThen fun _ r8 =>
  (tokQuoteScan r8).andThen fun _ r9 => .done tok r9

/-- Body of `/change\s+[`'"]([\w\-_.]+)[`'"]\s+to/i` (the extractor's rule 4). -/
def changeToShortCore (s : List Char) : ScanRes (List Char) :=
  (litScan "change".toList s).andThen fun _ r1 =>
  (sp1Scan r1).andThen fun _ r2 =>
  (quoteScan r2).andThen fun _ r3 =>
  (tokQuoteScan r3).andThen fun tok r4 =>
  (sp1Scan r4).andThen fun _ r5 =>
  (litScan "to".toList r5).andThen fun _ r6 => .done tok r6

/-- Body of
`/use\s+[`'"]([\w\-_.]+)[`'"]\s+instead\s+of\s+[`'"]([\w\-_.]+)[`'"]/i`
(the extractor's rule 1; it keeps the second capture). -/
def useInsteadOfPairCore (s : List Char) : ScanRes (List Char) :=
  (litScan "use".toList s).andThen fun _ r1 =>
  (sp1Scan r1).andThen fun _ r2 =>
  (quoteScan r2).andThen fun _ r3 =>
  (tokQuoteScan r3).andThen fun _ r4 =>
  (sp1Scan r4).andThen fun _ r5 =>
  (litScan "instead".toList r5).andThen fun _ r6 =>
  (sp1Scan r6).andThen fun _ r7 =>
  (litScan "of".toList r7).andThen fun _ r8 =>
  (sp1Scan r8).andThen fun _ r9 =>
  (quoteScan r9).andThen fun _ r10 =>
  tokQuoteScan r10

/-- All the capture patterns open with `\b` and then a word character, so
the boundary holds exactly when the previous character is not a word
character. -/
def withWb (core : List Char → ScanRes α) (prev : Option Char) (s : List Char) :
    ScanRes α :=
  if isWordOpt prev then .fail else core s

/-- Leftmost match, as `String.prototype.match` without `g` returns it. -/
def scanFirst (tryAt : Option Char → List Char → ScanRes (List Char)) :
    Option Char → List Char → Option (List Char)
  | prev, [] =>
      match tryAt prev [] with
      | .done v _ => some v
      | _ => none
  | prev, c :: cs =>
      match tryAt prev (c :: cs) with
      | .done v _ => some v
      | _ => scanFirst tryAt (some c) cs

def findInsteadOfQuoted (m : List Char) : Option (List Char) :=
  scanFirst (withWb insteadOfCore) none m

def findUseQuotedInstead (m : List Char) : Option (List Char) :=
  scanFirst (withWb useInsteadCore) none m

def findDontUseQuoted (m : List Char) : Option (List Char) :=
  scanFirst (withWb dontUseCore) none m

def findChangeQuotedTo (m : List Char) : Option (List Char) :=
  scanFirst (withWb changeToCore) none m

def findChangeQuotedToShort (m : List Char) : Option (List Char) :=
  scanFirst (withWb changeToShortCore) none m

def findUseInsteadOfPair (m : List Char) : Option (List Char) :=
  scanFirst (withWb useInsteadOfPairCore) none m

/-! ## The Prior-Turn Record and the context-aware signal table -/

/-- The `LastResponse` record written by the Stop hook; `timestamp` is
`new Date(data.timestamp).getTime()`, milliseconds since the epoch. -/
structure LastResponse where
  sessionId : List Char
  response : List Char
  toolsUsed : List (List Char)
  filesModified : List (List Char)
  codeWritten : List Char
  timestamp : ℤ
deriving DecidableEq

/-- `(response.response + ' ' + response.codeWritten).toLowerCase()`, the
haystack every `responseCheck` searches. -/
def respHay (lr : LastResponse) : List Char :=
  lowerList (lr.response ++ ' ' :: lr.codeWritten)

/-- JS `String.prototype.includes`. -/
def containsSub : List Char → List Char → Bool
  | pat, [] => pat.isEmpty
  | pat, c :: cs => pat.isPrefixOf (c :: cs) || containsSub pat cs

structure ContextAwareSignal where
  findMatch : List Char → Option (List Char)
  weight : ℚ
  contextWeight : ℚ
  responseCheck : Option (List Char → LastResponse → Bool) := none

/-- `/\bthat'?s\s+not\s+(what|how)\s+I\s+(meant|wanted)/i` -/
def ctxRe1 : RE :=
  .seq .wb (.seq thatsRE (.seq sp1RE (.seq (strRE "not") (.seq sp1RE
    (.seq (altL [strRE "what", strRE "how"]) (.seq sp1RE (.seq (strRE "i")
      (.seq sp1RE (altL [strRE "meant", strRE "wanted"])))))))))

/-- `/\bwhy\s+did\s+you\s+(use|write|put|add|create)/i` -/
def ctxRe2 : RE :=
  .seq .wb (.seq (strRE "why") (.seq sp1RE (.seq (strRE "did") (.seq sp1RE
    (.seq (strRE "you") (.seq sp1RE
      (altL [strRE "use", strRE "write", strRE "put", strRE "add", strRE "create"])))))))

/-- `/\bno,?\s*(actually|don'?t|stop)/i` -/
def ctxRe5 : RE :=
  .seq .wb (.seq (strRE "no") (.seq (.opt (.cls fun c => c = ','))
    (.seq spStarRE (altL [strRE "actually", dontRE, strRE "stop"]))))

/-- `/\bthat'?s\s+(wrong|incorrect|not\s+right)/i` (also the test the
extractor's fallback rule runs). -/
def ctxRe6 : RE :=
  .seq .wb (.seq thatsRE (.seq sp1RE (altL [strRE "wrong", strRE "incorrect",
    .seq (strRE "not") (.seq sp1RE (strRE "right"))])))

/-- The context-aware signal table, in source order. -/
def contextAwareSignals : List ContextAwareSignal := [
  { findMatch := fun m => if reTest ctxRe1 m then some [] else none,
    weight := 3/10, contextWeight := 75/100 },
  { findMatch := fun m => if reTest ctxRe2 m then some [] else none,
    weight := 4/10, contextWeight := 8/10 },
  { findMatch := findInsteadOfQuoted, weight := 5/10, contextWeight := 85/100,
    responseCheck := some fun cap lr => containsSub (lowerList cap) (respHay lr) },
  { findMatch := findUseQuotedInstead, weight := 5/10, contextWeight := 85/100,
    responseCheck := some fun cap lr => !containsSub (lowerList cap) (respHay lr) },
  { findMatch := fun m => if reTest ctxRe5 m then some [] else none,
    weight := 25/100, contextWeight := 65/100 },
  { findMatch := fun m => if reTest ctxRe6 m then some [] else none,
    weight := 4/10, contextWeight := 8/10 },
  { findMatch := findDontUseQuoted, weight := 45/100, contextWeight := 85/100,
    responseCheck := some fun cap lr => containsSub (lowerList cap) (respHay lr) },
  { findMatch := findChangeQuotedTo, weight := 5/10, contextWeight := 85/100,
    responseCheck := some fun cap lr => containsSub (lowerList cap) (respHay lr) }]

structure CtxMatch where
  weight : ℚ
  contextWeight : ℚ
  validated : Bool
deriving DecidableEq

/-- `matchContextAwareSignals` of the source: for each matching signal,
record its weights and whether its `responseCheck` (if any) validated. -/
def matchContextAwareSignals (message : List Char) (lastResponse : LastResponse) :
    List CtxMatch :=
  contextAwareSignals.filterMap fun signal =>
    match signal.findMatch message with
    | none => none
    | some cap =>
        some { weight := signal.weight, contextWeight := signal.contextWeight,
               validated :=
                 match signal.responseCheck with
                 | none => true
                 | some chk => chk cap lastResponse }

/-! ## Identifier-reference boost -/

def wordRunsAux : List Char → List Char → List (List Char)
  | [], acc => if acc.isEmpty then [] else [acc.reverse]
  | c :: cs, acc =>
      if isWordCharB c then wordRunsAux cs (c :: acc)
      else if acc.isEmpty then wordRunsAux cs []
      else acc.reverse :: wordRunsAux cs []

/-- The maximal `\w` runs of a string. -/
def wordRuns (s : List Char) : List (List Char) := wordRunsAux s []

def identStartChar (c : Char) : Bool :=
  (('a' ≤ c && c ≤ 'z') || ('A' ≤ c && c ≤ 'Z') || c = '_')

/-- The stoplist of `getIdentifierReferenceBoost`. -/
def keywordList : List (List Char) :=
  ["const", "let", "var", "function", "return", "import", "export", "from",
   "class", "this", "new", "true", "false", "null", "undefined"].map String.toList

/-- The identifiers `/\b([a-zA-Z_][a-zA-Z0-9_]{2,})\b/g` collects from the
code, minus the keyword stoplist: exactly the maximal word runs of length
at least 3 whose first character is a letter or underscore (a run starting
with a digit offers no interior `\b`, so the pattern skips it whole). -/
def codeIdentifiers (code : List Char) : List (List Char) :=
  (wordRuns code).filter fun run =>
    (match run with | [] => false | c :: _ => identStartChar c) &&
    decide (3 ≤ run.length) && !keywordList.contains (lowerList run)

/-- All matches of `/[`'"]([\w\-_.]+)[`'"]/g`, quotes stripped: the
identifiers the user quotes in the message. -/
def scanQuoted : List Char → List (List Char)
  | [] => []
  | c :: cs =>
      if isQuoteChar c then
        match h : cs.dropWhile isTokChar with
        | [] => scanQuoted cs
        | r :: rs =>
            if !(cs.takeWhile isTokChar).isEmpty && isQuoteChar r then
              cs.takeWhile isTokChar :: scanQuoted rs
            else scanQuoted cs
      else scanQuoted cs
termination_by s => s.length
decreasing_by
  all_goals simp_wf
  all_goals try omega
  all_goals rename_i tl hq hc
  all_goals
    have hsub : List.Sublist (List.dropWhile isTokChar tl) tl := List.dropWhile_sublist isTokChar
  all_goals
    have hle := hsub.length_le
  all_goals rw [h] at hle
  all_goals simp at hle
  all_goals omega

/-- `getIdentifierReferenceBoost` of the source (1.15 when the user quotes
an identifier of the last response's code, else 1.0). -/
def getIdentifierReferenceBoost (message : List Char) (lastResponse : LastResponse) : ℚ :=
  if lastResponse.codeWritten.isEmpty then 1
  else if (scanQuoted message).any
      (fun tok => (codeIdentifiers lastResponse.codeWritten).contains tok) then 115/100
  else 1

/-! ## Example extractor -/

/-- `extractBadExample` of the source: ordered first-match-wins rules, then
the "that's wrong" fallback to the first line of the captured code. -/
def extractBadExample (message : List Char) (lastResponse : LastResponse) :
    Option (List Char) :=
  match findUseInsteadOfPair message with
  | some b => some b
  | none =>
  match findInsteadOfQuoted message with
  | some b => some b
  | none =>
  match findDontUseQuoted message with
  | some b => some b
  | none =>
  match findChangeQuotedToShort message with
  | some b => some b
  | none =>
  if reTest ctxRe6 message &&
      (lastResponse.toolsUsed.contains "Edit".toList ||
       lastResponse.toolsUsed.contains "Write".toList) then
    let codeSnippet := lastResponse.codeWritten.take 100
    if codeSnippet.isEmpty then none
    else some (codeSnippet.takeWhile fun c => c != '\n')
  else none

/-! ## Code boost -/

def startsTriple : List Char → Bool
  | c1 :: c2 :: c3 :: _ => c1 = backtickChar && c2 = backtickChar && c3 = backtickChar
  | _ => false

def hasTriple : List Char → Bool
  | [] => false
  | c :: cs => startsTriple (c :: cs) || hasTriple cs

/-- `/```[\s\S]*```/.test`: a triple backtick with another one at or after
three characters later. -/
def hasCodeBlock : List Char → Bool
  | [] => false
  | c :: cs => if startsTriple (c :: cs) then hasTriple (cs.drop 2) else hasCodeBlock cs

def inlineAfterTick : List Char → Bool
  | [] => false
  | c :: cs => if c = backtickChar then false else inlineSeek cs
where
  inlineSeek : List Char → Bool
    | [] => false
    | c :: cs => if c = backtickChar then true else inlineSeek cs

/-- `` /`[^`]+`/.test ``. -/
def hasInlineCode : List Char → Bool
  | [] => false
  | c :: cs => (c = backtickChar && inlineAfterTick cs) || hasInlineCode cs

def MIN_MESSAGE_LENGTH : ℕ := 15

def MIN_CONFIDENCE : ℚ := 4/10

def CONTEXT_STALENESS_MS : ℤ := 5 * 60 * 1000

/-- `getCodeBoost` of the source. -/
def getCodeBoost (message : List Char) : ℚ :=
  if hasCodeBlock message then 13/10
  else if hasInlineCode message then 115/100
  else if message.any isCodeIndicator && decide (30 < message.length) then 105/100
  else 1

/-! ## The Scorer -/

structure DetectionResult where
  isCorrection : Bool
  confidence : ℚ
  categoryHints : List PatternCategory
  skipLearning : Bool
  badExample : Option (List Char)
  hasContext : Bool
deriving DecidableEq

/-- Accumulator of the plain-signal loop (`totalWeight`, `maxWeight`, the
insertion-ordered hint set). -/
structure ScanState where
  tw : ℚ
  mw : ℚ
  hints : List PatternCategory

def plainStep (message : List Char) (acc : ScanState) (signal : CorrectionSignal) :
    ScanState :=
  if reTest signal.pattern message then
    { tw := acc.tw + signal.weight, mw := max acc.mw signal.weight,
      hints :=
        match signal.categoryHint with
        | some h => if acc.hints.contains h then acc.hints else acc.hints ++ [h]
        | none => acc.hints }
  else acc

def plainScan (message : List Char) : ScanState :=
  correctionSignals.foldl (plainStep message) ⟨0, 0, []⟩

/-- Accumulator of the context-aware loop (`totalWeight`, `maxWeight`,
`contextBoost`). -/
structure CtxState where
  tw : ℚ
  mw : ℚ
  boost : ℚ

def ctxStep (acc : CtxState) (m : CtxMatch) : CtxState :=
  if m.validated then
    { tw := acc.tw + m.contextWeight, mw := max acc.mw m.contextWeight,
      boost := acc.boost + (m.contextWeight - m.weight) }
  else
    { tw := acc.tw + m.weight, mw := max acc.mw m.weight, boost := acc.boost }

def ctxFold (ms : List CtxMatch) (init : CtxState) : CtxState :=
  ms.foldl ctxStep init

/-- `analyzeMessage` of the source, line for line: length gate, skip gate,
plain-signal scan, context-aware scan with identifier boost and example
extraction, then the confidence formula. -/
def analyzeMessage (message : List Char) (lastResponse : Option LastResponse) :
    DetectionResult :=
  let base : DetectionResult :=
    { isCorrection := false, confidence := 0, categoryHints := [],
      skipLearning := false, badExample := none, hasContext := lastResponse.isSome }
  if message.length < MIN_MESSAGE_LENGTH then base
  else if skipMatches message then { base with skipLearning := true }
  else
    let st := plainScan message
    let ctx : CtxState × Option (List Char) :=
      match lastResponse with
      | none => (⟨st.tw, st.mw, 0⟩, none)
      | some lr =>
          let folded := ctxFold (matchContextAwareSignals message lr) ⟨st.tw, st.mw, 0⟩
          (⟨folded.tw, folded.mw,
            folded.boost +
              (if 1 < getIdentifierReferenceBoost message lr then 1/10 else 0)⟩,
           extractBadExample message lr)
    let multiSignalBonus := min ((ctx.1.tw - ctx.1.mw) * (3/10)) (2/10)
    let conf1 := (ctx.1.mw + multiSignalBonus) * getCodeBoost message
    let conf2 := conf1 + min ctx.1.boost (25/100)
    let confidence := min conf2 1
    { isCorrection := decide (MIN_CONFIDENCE ≤ confidence),
      confidence := confidence,
      categoryHints := st.hints,
      skipLearning := false,
      badExample := ctx.2,
      hasContext := lastResponse.isSome }

/-! ## Storage layer

File reads are modelled by `Option (Option α)`: `none` = file missing,
`some none` = file exists but `JSON.parse` throws, `some (some a)` = parsed
content.  A reader with a `try`/`catch` absorbs the `some none` case; one
without propagates it as an `Except.error`. -/

/-- A persisted rule (`Pattern` of the source).  `hitCount` is optional
because the ranking reads it as `(p.hitCount || 0)`. -/
structure StoredPattern where
  id : List Char
  name : List Char
  description : List Char
  category : PatternCategory
  badExample : Option (List Char)
  goodExample : Option (List Char)
  confidence : ℚ
  createdAt : ℤ
  hitCount : Option ℕ
deriving DecidableEq

structure PatternsData where
  patterns : List StoredPattern
  version : ℤ
deriving DecidableEq

/-- `loadPatterns` of the original hook (first variant in the detector
file): `try { return JSON.parse(...) } catch { return {patterns: [],
version: 1} }`, and the same default when the file is missing. -/
def loadPatternsLegacy (file : Option (Option PatternsData)) : PatternsData :=
  match file with
  | none => { patterns := [], version := 1 }
  | some none => { patterns := [], version := 1 }
  | some (some d) => d

/-- `', '`-join. -/
def joinCommaSpace : List (List Char) → List Char
  | [] => []
  | [x] => x
  | x :: xs => x ++ ',' :: ' ' :: joinCommaSpace xs

/-- `getExistingPatternNames` of the detector: `'none'` when the file is
missing, unparsable or empty, else the last 10 names joined by `', '`. -/
def getExistingPatternNames (file : Option (Option PatternsData)) : List Char :=
  match file with
  | none => "none".toList
  | some none => "none".toList
  | some (some data) =>
      if data.patterns.length = 0 then "none".toList
      else joinCommaSpace ((data.patterns.drop (data.patterns.length - 10)).map (·.name))

/-- `loadLastResponse` of the detector: missing or unparsable file, or a
record older than `CONTEXT_STALENESS_MS`, degrade to `none`. -/
def loadLastResponse (file : Option (Option LastResponse)) (now : ℤ) :
    Option LastResponse :=
  match file with
  | none => none
  | some none => none
  | some (some data) =>
      if CONTEXT_STALENESS_MS < now - data.timestamp then none else some data

/-- `loadPatterns` of the session-start hook: no `try`/`catch`, so an
unparsable file propagates the `JSON.parse` exception. -/
def loadPatternsSession (file : Option (Option PatternsData)) :
    Except Unit PatternsData :=
  match file with
  | none => .ok { patterns := [], version := 1 }
  | some none => .error ()
  | some (some d) => .ok d

/-- The detection pipeline of the detector's `main`: load the last
response (degrading on missing/corrupt/stale) and analyze the message. -/
def detectWithStoredContext (message : List Char)
    (file : Option (Option LastResponse)) (now : ℤ) : DetectionResult :=
  analyzeMessage message (loadLastResponse file now)

/-! ## Rule-Set Prioritizer (session-start hook) -/

/-- The comparator's key: `(hitCount || 0) * 2 + (new Date(createdAt) >
Date.now() - 7*24*60*60*1000 ? 1 : 0)`. -/
def patternScore (now : ℤ) (p : StoredPattern) : ℤ :=
  (p.hitCount.getD 0 : ℤ) * 2 +
    (if now - 7 * 24 * 60 * 60 * 1000 < p.createdAt then 1 else 0)

/-- Stable insertion for the descending sort: `p` goes before the first
element whose score is not greater than `p`'s, so earlier input elements
of equal score stay in front. -/
def insertByScore (now : ℤ) (p : StoredPattern) : List StoredPattern → List StoredPattern
  | [] => [p]
  | q :: qs =>
      if patternScore now p < patternScore now q then q :: insertByScore now p qs
      else p :: q :: qs

/-- `patterns.sort((a, b) => scoreB - scoreA)` — JS `Array.prototype.sort`
is stable, modelled as a stable insertion sort on the descending score. -/
def sortPatterns (now : ℤ) (l : List StoredPattern) : List StoredPattern :=
  l.foldr (insertByScore now) []

/-- The session-start ranking: stable descending sort, then `slice(0, 20)`. -/
def prioritizePatterns (now : ℤ) (l : List StoredPattern) : List StoredPattern :=
  (sortPatterns now l).take 20

/-! ## Concrete inputs used by the claims -/

def msgConstVar : List Char := "use `const` instead of `var`".toList

def msgSkipLong : List Char := "this is an exception ok".toList

def msgShortSkip : List Char := "exception".toList

def msgFixThis : List Char := "fix this".toList

def staleRecord : LastResponse :=
  { sessionId := "s1".toList, response := "I used var here".toList,
    toolsUsed := ["Edit".toList], filesModified := [], codeWritten := "var x = 1".toList,
    timestamp := 0 }

/-! ## Claims about the Scorer's gates -/

/-- C4: a message shorter than 15 characters is never scored: for any
prior-turn record the Scorer returns `isCorrection = false` and
`confidence = 0`. -/
theorem short_message_not_scored (m : List Char) (r : Option LastResponse)
    (hlen : m.length < MIN_MESSAGE_LENGTH) :
    (analyzeMessage m r).isCorrection = false ∧ (analyzeMessage m r).confidence = 0 := by
  rw [analyzeMessage, if_pos hlen]
  exact ⟨rfl, rfl⟩

/-- Witness for C4 at the concrete 8-character message `"fix this"`. -/
theorem short_message_witness :
    (analyzeMessage msgFixThis none).isCorrection = false ∧
      (analyzeMessage msgFixThis none).confidence = 0 :=
  short_message_not_scored msgFixThis none (by decide)

/-- C10: the minimum-length gate runs before the skip detector, so a
short message that matches a skip trigger still comes back with
`skipLearning = false`. -/
theorem short_skip_message_skipLearning_false (m : List Char) (r : Option LastResponse)
    (hlen : m.length < MIN_MESSAGE_LENGTH) (hskip : skipMatches m = true) :
    (analyzeMessage m r).skipLearning = false := by
  rw [analyzeMessage, if_pos hlen]

/-- Witness for C10: `"exception"` (9 characters) matches the
`/exception/i` skip trigger yet `skipLearning` stays `false`. -/
theorem short_skip_witness :
    skipMatches msgShortSkip = true ∧
      (analyzeMessage msgShortSkip none).skipLearning = false :=
  ⟨by decide, short_skip_message_skipLearning_false msgShortSkip none (by decide) (by decide)⟩

/-- C2 counterexample: the claim promises `skipLearning = true` for every
skip-trigger match, but the 9-character message `"exception"` matches a
skip trigger and the Scorer returns `skipLearning = false` (with
`isCorrection = false` but not through the skip branch). -/
theorem skip_short_message_not_flagged :
    skipMatches msgShortSkip = true ∧
      (analyzeMessage msgShortSkip none).skipLearning = false ∧
      (analyzeMessage msgShortSkip none).isCorrection = false := by
  refine ⟨by decide, ?_, ?_⟩ <;> · rw [analyzeMessage, if_pos (by decide)]

/-- C2 as amended: for messages of at least the minimum length, a
skip-trigger match short-circuits the Scorer with `skipLearning = true`,
`isCorrection = false` and `confidence = 0`, whatever other signals match
and whether or not a record is present. -/
theorem skip_dominance_above_min_length (m : List Char) (r : Option LastResponse)
    (hlen : MIN_MESSAGE_LENGTH ≤ m.length) (hskip : skipMatches m = true) :
    analyzeMessage m r =
      { isCorrection := false, confidence := 0, categoryHints := [],
        skipLearning := true, badExample := none, hasContext := r.isSome } := by
  rw [analyzeMessage, if_neg (by omega), if_pos hskip]

/-- Witness for the amended C2 at `"this is an exception ok"` with a
record present: the message also matches correction signals
(`that`-free, but e.g. the error-handling category signal), yet the skip
branch wins. -/
theorem skip_dominance_witness :
    analyzeMessage msgSkipLong (some staleRecord) =
      { isCorrection := false, confidence := 0, categoryHints := [],
        skipLearning := true, badExample := none, hasContext := true } :=
  skip_dominance_above_min_length msgSkipLong (some staleRecord) (by decide) (by decide)

/-! ## Claims about the concrete scenario and storage degradation -/

section
attribute [local semireducible] Rat.mul Rat.inv Rat.add Rat.sub

/-- C1 counterexample: on `` "use `const` instead of `var`" `` with no
prior-turn record the claimed `badExample = "var"` fails — the extractor
only runs when a record is present, so `badExample` is absent. -/
theorem analyze_constVar_noContext_refutes_badExample :
    ¬((analyzeMessage msgConstVar none).badExample = some "var".toList ∧
      (7/10 : ℚ) ≤ (analyzeMessage msgConstVar none).confidence) := by
  decide

/-- C1 as amended: with no prior-turn record, the message scores
`0.7 * 1.15 = 0.805 ≥ 0.7` (the 0.7-weight "instead of" signal with the
inline-code boost) but `badExample` is absent. -/
theorem analyze_constVar_noContext :
    (analyzeMessage msgConstVar none).badExample = none ∧
      (analyzeMessage msgConstVar none).confidence = 161/200 ∧
      (7/10 : ℚ) ≤ (analyzeMessage msgConstVar none).confidence := by
  decide

end

/-- C6 counterexample: the session-start hook's rule-collection reader has
no `try`/`catch`, so a present-but-unparsable file is a fatal
`JSON.parse` exception, not an empty collection. -/
theorem session_loader_corrupt_fatal :
    loadPatternsSession (some none) = Except.error () := rfl

/-- C6 as amended: a missing file is never fatal for any reader, and the
detection-path readers (`getExistingPatternNames`, `loadLastResponse`,
the original hook's `loadPatterns`) also absorb corrupt content, but the
session-start `loadPatterns` propagates the parse error on corrupt
content. -/
theorem storage_fallbacks (now : ℤ) :
    loadPatternsLegacy none = { patterns := [], version := 1 } ∧
    loadPatternsLegacy (some none) = { patterns := [], version := 1 } ∧
    getExistingPatternNames none = "none".toList ∧
    getExistingPatternNames (some none) = "none".toList ∧
    loadLastResponse none now = none ∧
    loadLastResponse (some none) now = none ∧
    loadPatternsSession none = Except.ok { patterns := [], version := 1 } ∧
    (loadPatternsSession (some none)).isOk = false :=
  ⟨rfl, rfl, rfl, rfl, rfl, rfl, rfl, rfl⟩

/-- C7: a record whose `capturedAt` lies more than `CONTEXT_STALENESS_MS`
(5 minutes) in the past loads as no context, and the detection pipeline
then behaves exactly as with no record at all. -/
theorem stale_record_dropped (d : LastResponse) (now : ℤ) (m : List Char)
    (hstale : CONTEXT_STALENESS_MS < now - d.timestamp) :
    loadLastResponse (some (some d)) now = none ∧
      detectWithStoredContext m (some (some d)) now = analyzeMessage m none := by
  have h : loadLastResponse (some (some d)) now = none := by
    rw [loadLastResponse, if_pos hstale]
  exact ⟨h, by rw [detectWithStoredContext, h]⟩

/-- Witness for C7: a record captured 6 minutes before `now` is dropped
and the scorer's output equals the context-free one. -/
theorem stale_record_witness :
    loadLastResponse (some (some staleRecord)) 360000 = none ∧
      detectWithStoredContext msgConstVar (some (some staleRecord)) 360000 =
        analyzeMessage msgConstVar none :=
  stale_record_dropped staleRecord 360000 msgConstVar (by decide)

/-! ## Rule-Set Prioritizer: ranking, stability, bound -/

theorem mem_insertByScore (now : ℤ) (p x : StoredPattern) (l : List StoredPattern) :
    x ∈ insertByScore now p l ↔ x = p ∨ x ∈ l := by
  induction l with
  | nil => simp [insertByScore]
  | cons q qs ih =>
      rw [insertByScore]
      split
      · simp only [List.mem_cons, ih]
        tauto
      · simp [List.mem_cons]

theorem pairwise_insertByScore (now : ℤ) (p : StoredPattern) (l : List StoredPattern)
    (h : List.Pairwise (fun a b => patternScore now b ≤ patternScore now a) l) :
    List.Pairwise (fun a b => patternScore now b ≤ patternScore now a)
      (insertByScore now p l) := by
  induction l with
  | nil => simp [insertByScore]
  | cons q qs ih =>
      rcases List.pairwise_cons.mp h with ⟨hq, hqs⟩
      rw [insertByScore]
      split
      · rename_i hlt
        refine List.pairwise_cons.mpr ⟨?_, ih hqs⟩
        intro x hx
        rcases (mem_insertByScore now p x qs).mp hx with rfl | hx
        · exact le_of_lt hlt
        · exact hq x hx
      · rename_i hlt
        refine List.pairwise_cons.mpr ⟨?_, h⟩
        intro x hx
        rcases List.mem_cons.mp hx with rfl | hx
        · exact not_lt.mp hlt
        · exact le_trans (hq x hx) (not_lt.mp hlt)

theorem sortPatterns_pairwise (now : ℤ) (l : List StoredPattern) :
    List.Pairwise (fun a b => patternScore now b ≤ patternScore now a)
      (sortPatterns now l) := by
  induction l with
  | nil => simp [sortPatterns]
  | cons p ps ih => exact pairwise_insertByScore now p _ ih

theorem filter_insertByScore (now v : ℤ) (p : StoredPattern) (l : List StoredPattern) :
    (insertByScore now p l).filter (fun q => decide (patternScore now q = v)) =
      if patternScore now p = v then
        p :: l.filter (fun q => decide (patternScore now q = v))
      else l.filter (fun q => decide (patternScore now q = v)) := by
  induction l with
  | nil =>
      rw [insertByScore]
      by_cases hp : patternScore now p = v <;> simp [List.filter_cons, hp]
  | cons q qs ih =>
      rw [insertByScore]
      split
      · rename_i hlt
        by_cases hq : patternScore now q = v
        · have hp : ¬patternScore now p = v := by omega
          simp [List.filter_cons, hq, hp] at ih ⊢
          exact ih
        · simp only [List.filter_cons, decide_eq_true_eq, if_neg hq]
          exact ih
      · simp [List.filter_cons]

theorem filter_sortPatterns (now v : ℤ) (l : List StoredPattern) :
    (sortPatterns now l).filter (fun q => decide (patternScore now q = v)) =
      l.filter (fun q => decide (patternScore now q = v)) := by
  induction l with
  | nil => rfl
  | cons p ps ih =>
      show (insertByScore now p (sortPatterns now ps)).filter _ = _
      rw [filter_insertByScore, List.filter_cons]
      by_cases hp : patternScore now p = v
      · simp [hp, ih]
      · simp [hp, ih]

/-- C9: the Rule-Set Prioritizer is the stable descending sort on
`score = hitCount*2 + (created within the last 7 days ? 1 : 0)` truncated
to the first 20 entries: the output is the 20-element prefix of the
sorted collection, the sorted collection is ordered by non-increasing
score, and for every score value the rules carrying it appear in their
input order (ties, in particular equal-hitCount rules older than 7 days,
keep insertion order). -/
theorem prioritizer_ranking (now : ℤ) (l : List StoredPattern) :
    prioritizePatterns now l = (sortPatterns now l).take 20 ∧
    (prioritizePatterns now l).length ≤ 20 ∧
    List.Pairwise (fun a b => patternScore now b ≤ patternScore now a)
      (sortPatterns now l) ∧
    ∀ v : ℤ, (sortPatterns now l).filter (fun q => decide (patternScore now q = v)) =
      l.filter (fun q => decide (patternScore now q = v)) := by
  refine ⟨rfl, ?_, sortPatterns_pairwise now l, fun v => filter_sortPatterns now v l⟩
  rw [prioritizePatterns]
  exact le_trans (List.length_take_le 20 _) le_rfl

/-! ## Characterizing the weight accumulation -/

/-- The weight a context-aware match contributes: `contextWeight` when
validated, `weight` otherwise. -/
def chosenWeight (x : CtxMatch) : ℚ := if x.validated then x.contextWeight else x.weight

/-- Maximum of a list of weights, 0 when empty (the accumulators start
at 0). -/
def listMaxQ (l : List ℚ) : ℚ := l.foldr max 0

theorem listMaxQ_nonneg (l : List ℚ) : 0 ≤ listMaxQ l := by
  induction l with
  | nil => exact le_refl 0
  | cons x xs ih => exact le_trans ih (le_max_right x (listMaxQ xs))

theorem listMaxQ_append (a b : List ℚ) :
    listMaxQ (a ++ b) = max (listMaxQ a) (listMaxQ b) := by
  induction a with
  | nil => exact (max_eq_right (listMaxQ_nonneg b)).symm
  | cons x xs ih =>
      show max x (listMaxQ (xs ++ b)) = max (max x (listMaxQ xs)) (listMaxQ b)
      rw [ih, max_assoc]

theorem ctxStep_tw (a : CtxState) (x : CtxMatch) :
    (ctxStep a x).tw = a.tw + chosenWeight x := by
  rw [ctxStep, chosenWeight]; split <;> rfl

theorem ctxStep_mw (a : CtxState) (x : CtxMatch) :
    (ctxStep a x).mw = max a.mw (chosenWeight x) := by
  rw [ctxStep, chosenWeight]; split <;> rfl

theorem ctxStep_boost (a : CtxState) (x : CtxMatch) :
    (ctxStep a x).boost =
      a.boost + (if x.validated then x.contextWeight - x.weight else 0) := by
  rw [ctxStep]; split <;> simp

theorem ctxFold_tw (ms : List CtxMatch) (init : CtxState) :
    (ctxFold ms init).tw = init.tw + (ms.map chosenWeight).sum := by
  induction ms generalizing init with
  | nil => simp [ctxFold]
  | cons x xs ih =>
      show (ctxFold xs (ctxStep init x)).tw = _
      rw [ih, ctxStep_tw]
      simp [add_assoc]

theorem ctxFold_mw (ms : List CtxMatch) (init : CtxState) (h0 : 0 ≤ init.mw) :
    (ctxFold ms init).mw = max init.mw (listMaxQ (ms.map chosenWeight)) := by
  induction ms generalizing init with
  | nil => simp [ctxFold, listMaxQ, max_eq_left h0]
  | cons x xs ih =>
      show (ctxFold xs (ctxStep init x)).mw = _
      rw [ih _ (by rw [ctxStep_mw]; exact le_trans h0 (le_max_left _ _)), ctxStep_mw]
      show _ = max init.mw (max (chosenWeight x) (listMaxQ (xs.map chosenWeight)))
      rw [max_assoc]

theorem ctxFold_boost (ms : List CtxMatch) (init : CtxState) :
    (ctxFold ms init).boost =
      init.boost + ((ms.filter (fun x => x.validated)).map
        (fun x => x.contextWeight - x.weight)).sum := by
  induction ms generalizing init with
  | nil => simp [ctxFold]
  | cons x xs ih =>
      show (ctxFold xs (ctxStep init x)).boost = _
      rw [ih, ctxStep_boost, List.filter_cons]
      by_cases hv : x.validated = true <;> simp [hv, add_assoc]

/-- C5: with a record present, each matched context-aware signal enters
the accumulator with `contextWeight` when its validator passed (or it has
none) and with its base `weight` otherwise; `totalWeight` gains the sum
of the chosen weights, `maxWeight` their maximum, and `contextBoost`
gains `contextWeight − weight` exactly over the validated matches; and
every signal of the table whose pattern matches contributes the
corresponding entry. -/
theorem context_weight_selection (m : List Char) (lr : LastResponse) (init : CtxState)
    (h0 : 0 ≤ init.mw) :
    (ctxFold (matchContextAwareSignals m lr) init).tw =
      init.tw + ((matchContextAwareSignals m lr).map chosenWeight).sum ∧
    (ctxFold (matchContextAwareSignals m lr) init).mw =
      max init.mw (listMaxQ ((matchContextAwareSignals m lr).map chosenWeight)) ∧
    (ctxFold (matchContextAwareSignals m lr) init).boost =
      init.boost + (((matchContextAwareSignals m lr).filter (fun x => x.validated)).map
        (fun x => x.contextWeight - x.weight)).sum ∧
    ∀ s ∈ contextAwareSignals, ∀ cap, s.findMatch m = some cap →
      ({ weight := s.weight, contextWeight := s.contextWeight,
         validated :=
           match s.responseCheck with
           | none => true
           | some chk => chk cap lr } : CtxMatch) ∈ matchContextAwareSignals m lr := by
  refine ⟨ctxFold_tw _ init, ctxFold_mw _ init h0, ctxFold_boost _ init, ?_⟩
  intro s hs cap hcap
  refine List.mem_filterMap.mpr ⟨s, hs, ?_⟩
  rw [hcap]

/-- Witness for C5 at `` "use `const` instead of `var`" `` against the
concrete record: the "instead of `var`" signal matches, its validator
finds `var` in the record's code, and the accumulators move as stated. -/
theorem context_weight_selection_witness :
    (ctxFold (matchContextAwareSignals msgConstVar staleRecord) ⟨0, 0, 0⟩).tw =
      (0 : ℚ) + ((matchContextAwareSignals msgConstVar staleRecord).map chosenWeight).sum ∧
    (ctxFold (matchContextAwareSignals msgConstVar staleRecord) ⟨0, 0, 0⟩).mw =
      max 0 (listMaxQ ((matchContextAwareSignals msgConstVar staleRecord).map chosenWeight)) ∧
    (ctxFold (matchContextAwareSignals msgConstVar staleRecord) ⟨0, 0, 0⟩).boost =
      (0 : ℚ) + (((matchContextAwareSignals msgConstVar staleRecord).filter
        (fun x => x.validated)).map (fun x => x.contextWeight - x.weight)).sum ∧
    ∀ s ∈ contextAwareSignals, ∀ cap, s.findMatch msgConstVar = some cap →
      ({ weight := s.weight, contextWeight := s.contextWeight,
         validated :=
           match s.responseCheck with
           | none => true
           | some chk => chk cap staleRecord } : CtxMatch) ∈
        matchContextAwareSignals msgConstVar staleRecord :=
  context_weight_selection msgConstVar staleRecord ⟨0, 0, 0⟩ le_rfl

section
attribute [local semireducible] Rat.mul Rat.inv Rat.add Rat.sub

theorem correctionSignals_weight_nonneg : ∀ s ∈ correctionSignals, 0 ≤ s.weight := by
  decide

theorem contextAwareSignals_weight_bounds :
    ∀ s ∈ contextAwareSignals, 0 ≤ s.weight ∧ s.weight ≤ s.contextWeight := by
  decide

end

theorem ctxMatch_weight_bounds (m : List Char) (lr : LastResponse) :
    ∀ x ∈ matchContextAwareSignals m lr, 0 ≤ x.weight ∧ x.weight ≤ x.contextWeight := by
  intro x hx
  rcases List.mem_filterMap.mp hx with ⟨s, hs, hfs⟩
  rcases hsp : s.findMatch m with _ | cap <;> rw [hsp] at hfs
  · exact absurd hfs (by simp)
  · dsimp only at hfs
    injection hfs with h
    subst h
    exact contextAwareSignals_weight_bounds s hs

theorem chosenWeight_nonneg (x : CtxMatch) (h : 0 ≤ x.weight ∧ x.weight ≤ x.contextWeight) :
    0 ≤ chosenWeight x := by
  rw [chosenWeight]
  split
  · exact le_trans h.1 h.2
  · exact h.1

/-! ## Plain-signal scan characterization -/

theorem plainFold_tw (m : List Char) (sigs : List CorrectionSignal) (acc : ScanState) :
    (sigs.foldl (plainStep m) acc).tw =
      acc.tw + ((sigs.filter fun s => reTest s.pattern m).map fun s => s.weight).sum := by
  induction sigs generalizing acc with
  | nil => simp
  | cons s ss ih =>
      rw [List.foldl_cons, ih, List.filter_cons]
      by_cases ht : reTest s.pattern m
      · rw [if_pos (by simpa using ht), plainStep, if_pos ht]
        simp [add_assoc]
      · rw [if_neg (by simpa using ht), plainStep, if_neg ht]

theorem plainFold_mw (m : List Char) (sigs : List CorrectionSignal) (acc : ScanState)
    (h0 : 0 ≤ acc.mw) (hw : ∀ s ∈ sigs, 0 ≤ s.weight) :
    (sigs.foldl (plainStep m) acc).mw =
      max acc.mw (listMaxQ ((sigs.filter fun s => reTest s.pattern m).map fun s => s.weight)) := by
  induction sigs generalizing acc with
  | nil => simp [listMaxQ, max_eq_left h0]
  | cons s ss ih =>
      rw [List.foldl_cons, List.filter_cons]
      by_cases ht : reTest s.pattern m
      · rw [if_pos (by simpa using ht)]
        have hstep : (plainStep m acc s).mw = max acc.mw s.weight := by
          rw [plainStep, if_pos ht]
        rw [ih (plainStep m acc s)
              (by rw [hstep]; exact le_trans h0 (le_max_left _ _))
              (fun t htm => hw t (List.mem_cons_of_mem s htm)),
            hstep]
        show _ = max acc.mw (max s.weight (listMaxQ _))
        rw [max_assoc]
      · rw [if_neg (by simpa using ht)]
        have hstep : plainStep m acc s = acc := by rw [plainStep, if_neg ht]
        rw [hstep]
        exact ih acc h0 fun t htm => hw t (List.mem_cons_of_mem s htm)

theorem plainScan_tw (m : List Char) :
    (plainScan m).tw =
      ((correctionSignals.filter fun s => reTest s.pattern m).map fun s => s.weight).sum := by
  rw [plainScan, plainFold_tw]
  show (0 : ℚ) + _ = _
  rw [zero_add]

theorem plainScan_mw (m : List Char) :
    (plainScan m).mw =
      listMaxQ ((correctionSignals.filter fun s => reTest s.pattern m).map fun s => s.weight) := by
  rw [plainScan, plainFold_mw m correctionSignals ⟨0, 0, []⟩ le_rfl correctionSignals_weight_nonneg]
  exact max_eq_right (listMaxQ_nonneg _)

/-! ## The spec's scoring formula (claim C3) -/

/-- The weights of the matched plain signals. -/
def plainMatchedWeights (m : List Char) : List ℚ :=
  (correctionSignals.filter fun s => reTest s.pattern m).map fun s => s.weight

/-- The spec's "all matched signal weights": plain matches, then (when a
record is present) the effective weights of the context-aware matches. -/
def specMatchedWeights (m : List Char) : Option LastResponse → List ℚ
  | none => plainMatchedWeights m
  | some lr => plainMatchedWeights m ++ (matchContextAwareSignals m lr).map chosenWeight

/-- The spec's `contextBoost`: the validated matches' `contextWeight −
baseWeight` plus the fixed 0.1 identifier-overlap increment. -/
def specContextBoost (m : List Char) : Option LastResponse → ℚ
  | none => 0
  | some lr =>
      (((matchContextAwareSignals m lr).filter fun x => x.validated).map
        (fun x => x.contextWeight - x.weight)).sum +
      (if 1 < getIdentifierReferenceBoost m lr then 1/10 else 0)

/-- The spec's confidence formula (§4.2 steps 4-6), stated over the
matched-weight list: `maxWeight + min((totalWeight − maxWeight)*0.3,
0.2)`, times the code-content multiplier, plus `min(contextBoost, 0.25)`,
clamped to 1. -/
def specConfidence (m : List Char) (r : Option LastResponse) : ℚ :=
  let tw := (specMatchedWeights m r).sum
  let mw := listMaxQ (specMatchedWeights m r)
  min ((mw + min ((tw - mw) * (3/10)) (2/10)) * getCodeBoost m +
    min (specContextBoost m r) (25/100)) 1

/-- The scored branch computes exactly the spec formula (shared by the
claims about the formula and about monotonicity). -/
theorem analyzeMessage_confidence_spec (m : List Char) (r : Option LastResponse)
    (hlen : MIN_MESSAGE_LENGTH ≤ m.length) (hskip : skipMatches m = false) :
    (analyzeMessage m r).confidence = specConfidence m r := by
  cases r with
    | none =>
        rw [analyzeMessage, if_neg (by omega), if_neg (by simp [hskip])]
        show min (((plainScan m).mw +
              min (((plainScan m).tw - (plainScan m).mw) * (3/10)) (2/10)) *
              getCodeBoost m + min (0 : ℚ) (25/100)) 1 = _
        rw [specConfidence, plainScan_tw, plainScan_mw]
        rfl
    | some lr =>
        rw [analyzeMessage, if_neg (by omega), if_neg (by simp [hskip])]
        show min
            (((ctxFold (matchContextAwareSignals m lr)
                  ⟨(plainScan m).tw, (plainScan m).mw, 0⟩).mw +
              min (((ctxFold (matchContextAwareSignals m lr)
                  ⟨(plainScan m).tw, (plainScan m).mw, 0⟩).tw -
                (ctxFold (matchContextAwareSignals m lr)
                  ⟨(plainScan m).tw, (plainScan m).mw, 0⟩).mw) * (3/10)) (2/10)) *
              getCodeBoost m +
            min ((ctxFold (matchContextAwareSignals m lr)
                  ⟨(plainScan m).tw, (plainScan m).mw, 0⟩).boost +
                (if 1 < getIdentifierReferenceBoost m lr then 1/10 else 0)) (25/100)) 1 = _
        rw [ctxFold_tw, ctxFold_mw _ _ (by rw [plainScan_mw]; exact listMaxQ_nonneg _),
            ctxFold_boost, plainScan_tw, plainScan_mw, zero_add]
        simp only [specConfidence, specMatchedWeights, specContextBoost,
          plainMatchedWeights, listMaxQ_append, List.sum_append]

/-- C3: for a message past the length gate that trips no skip trigger,
the Scorer's confidence is exactly the spec's formula, and
`isCorrection` is precisely `confidence ≥ MIN_CONFIDENCE`. -/
theorem confidence_formula_refines_spec (m : List Char) (r : Option LastResponse)
    (hlen : MIN_MESSAGE_LENGTH ≤ m.length) (hskip : skipMatches m = false) :
    (analyzeMessage m r).confidence = specConfidence m r ∧
    (analyzeMessage m r).isCorrection = decide (MIN_CONFIDENCE ≤ specConfidence m r) := by
  have hconf := analyzeMessage_confidence_spec m r hlen hskip
  have hisc : (analyzeMessage m r).isCorrection =
      decide (MIN_CONFIDENCE ≤ (analyzeMessage m r).confidence) := by
    rw [analyzeMessage, if_neg (by omega), if_neg (by simp [hskip])]
  exact ⟨hconf, by rw [hisc, hconf]⟩

/-- Witness for C3 at `` "use `const` instead of `var`" `` with no record. -/
theorem confidence_formula_witness :
    (analyzeMessage msgConstVar none).confidence = specConfidence msgConstVar none ∧
    (analyzeMessage msgConstVar none).isCorrection =
      decide (MIN_CONFIDENCE ≤ specConfidence msgConstVar none) :=
  confidence_formula_refines_spec msgConstVar none (by decide) (by decide)

/-! ## Appending text never removes a regex match

None of the signal regexes is anchored, and a `\b` that held at the end
of the input still holds when the appended text starts with a non-word
character, so every match survives an append of such text. -/

theorem nextIsWord_append (s t : List Char) (ht : nextIsWord t = false) :
    nextIsWord (s ++ t) = nextIsWord s := by
  cases s with
  | nil => exact ht
  | cons c cs => rfl

theorem starRun_self (p : Char → Bool) (prev : Option Char) (t : List Char) :
    (prev, t) ∈ starRun p prev t := by
  cases t with
  | nil => exact List.mem_singleton.mpr rfl
  | cons c cs =>
      rw [starRun]
      split
      · exact List.mem_append_right _ (List.mem_singleton.mpr rfl)
      · exact List.mem_singleton.mpr rfl

theorem starRun_append (p : Char → Bool) (prev : Option Char) (s t : List Char)
    (st : Option Char × List Char) (h : st ∈ starRun p prev s) :
    (st.1, st.2 ++ t) ∈ starRun p prev (s ++ t) := by
  induction s generalizing prev with
  | nil =>
      rcases List.mem_singleton.mp h with rfl
      exact starRun_self p prev t
  | cons c cs ih =>
      rw [starRun] at h
      show (st.1, st.2 ++ t) ∈ starRun p prev (c :: (cs ++ t))
      rw [starRun]
      split
      · rename_i hp
        rw [if_pos hp] at h
        rcases List.mem_append.mp h with h | h
        · exact List.mem_append_left _ (ih (some c) h)
        · rcases List.mem_singleton.mp h with rfl
          exact List.mem_append_right _ (List.mem_singleton.mpr rfl)
      · rename_i hp
        rw [if_neg hp] at h
        rcases List.mem_singleton.mp h with rfl
        exact List.mem_singleton.mpr rfl

theorem reRun_append (r : RE) (prev : Option Char) (s t : List Char)
    (ht : nextIsWord t = false) (st : Option Char × List Char)
    (h : st ∈ reRun r prev s) :
    (st.1, st.2 ++ t) ∈ reRun r prev (s ++ t) := by
  induction r generalizing prev s st with
  | eps =>
      rcases List.mem_singleton.mp h with rfl
      exact List.mem_singleton.mpr rfl
  | cls p =>
      cases s with
      | nil => simp [reRun] at h
      | cons c cs =>
          simp only [reRun, List.cons_append] at h ⊢
          by_cases hp : p c
          · rw [if_pos hp] at h ⊢
            rcases List.mem_singleton.mp h with rfl
            exact List.mem_singleton.mpr rfl
          · rw [if_neg hp] at h
            exact absurd h (List.not_mem_nil st)
  | seq a b iha ihb =>
      simp only [reRun] at h ⊢
      rcases List.mem_flatMap.mp h with ⟨mid, hmid, hst⟩
      exact List.mem_flatMap.mpr ⟨(mid.1, mid.2 ++ t), iha prev s mid hmid, ihb mid.1 mid.2 st hst⟩
  | alt a b iha ihb =>
      simp only [reRun] at h ⊢
      rcases List.mem_append.mp h with h | h
      · exact List.mem_append_left _ (iha prev s st h)
      · exact List.mem_append_right _ (ihb prev s st h)
  | opt r ihr =>
      simp only [reRun] at h ⊢
      rcases List.mem_append.mp h with h | h
      · exact List.mem_append_left _ (ihr prev s st h)
      · rcases List.mem_singleton.mp h with rfl
        exact List.mem_append_right _ (List.mem_singleton.mpr rfl)
  | starCls p => exact starRun_append p prev s t st h
  | wb =>
      simp only [reRun] at h ⊢
      rw [nextIsWord_append s t ht]
      by_cases hb : (isWordOpt prev != nextIsWord s) = true
      · rw [if_pos hb] at h ⊢
        rcases List.mem_singleton.mp h with rfl
        exact List.mem_singleton.mpr rfl
      · rw [if_neg hb] at h
        exact absurd h (List.not_mem_nil st)

theorem reHit_append (r : RE) (prev : Option Char) (s t : List Char)
    (ht : nextIsWord t = false) (h : reHit r prev s = true) :
    reHit r prev (s ++ t) = true := by
  rw [reHit] at h ⊢
  rcases List.exists_mem_of_ne_nil _ (by simpa using h) with ⟨st, hst⟩
  have := reRun_append r prev s t ht st hst
  simpa using List.ne_nil_of_mem this

theorem reSearch_append (r : RE) (prev : Option Char) (s t : List Char)
    (ht : nextIsWord t = false) (h : reSearch r prev s = true) :
    reSearch r prev (s ++ t) = true := by
  induction s generalizing prev with
  | nil =>
      show reSearch r prev t = true
      have hh : reHit r prev t = true := reHit_append r prev [] t ht h
      cases t with
      | nil => exact hh
      | cons c cs =>
          rw [reSearch]
          exact Or.inl hh |> Bool.or_eq_true_iff.mpr
  | cons c cs ih =>
      rw [reSearch] at h
      rcases Bool.or_eq_true_iff.mp h with h | h
      · show reSearch r prev (c :: (cs ++ t)) = true
        rw [reSearch]
        exact Bool.or_eq_true_iff.mpr (Or.inl (reHit_append r prev (c :: cs) t ht h))
      · show reSearch r prev (c :: (cs ++ t)) = true
        rw [reSearch]
        exact Bool.or_eq_true_iff.mpr (Or.inr (ih (some c) h))

theorem reTest_append (r : RE) (s t : List Char) (ht : nextIsWord t = false)
    (h : reTest r s = true) : reTest r (s ++ t) = true :=
  reSearch_append r none s t ht h

theorem skipMatches_append (s t : List Char) (ht : nextIsWord t = false)
    (h : skipMatches s = true) : skipMatches (s ++ t) = true := by
  rw [skipMatches] at h ⊢
  rcases List.any_eq_true.mp h with ⟨r, hr, hm⟩
  exact List.any_eq_true.mpr ⟨r, hr, reTest_append r s t ht hm⟩

/-! ## A fenced block appended to a message -/

/-- A fenced multi-line code block as appended to a message: a newline,
the opening fence, the code on its own lines, the closing fence. -/
def fencedBlock (code : List Char) : List Char :=
  '\n' :: backtickChar :: backtickChar :: backtickChar :: '\n' ::
    (code ++ '\n' :: backtickChar :: backtickChar :: backtickChar :: [])

theorem nextIsWord_fencedBlock (code : List Char) :
    nextIsWord (fencedBlock code) = false := rfl

theorem hasTriple_closing (u : List Char) :
    hasTriple (u ++ backtickChar :: backtickChar :: backtickChar :: []) = true := by
  induction u with
  | nil => rfl
  | cons c cs ih =>
      show (startsTriple _ || hasTriple (cs ++ _)) = true
      rw [ih, Bool.or_true]

theorem hasCodeBlock_append_fenced (m code : List Char) :
    hasCodeBlock (m ++ fencedBlock code) = true := by
  induction m with
  | nil =>
      show hasCodeBlock (fencedBlock code) = true
      rw [fencedBlock]
      show hasCodeBlock (backtickChar :: backtickChar :: backtickChar :: '\n' ::
        (code ++ '\n' :: backtickChar :: backtickChar :: backtickChar :: [])) = true
      rw [hasCodeBlock, if_pos (by rfl)]
      show hasTriple ('\n' :: (code ++ _)) = true
      have := hasTriple_closing ('\n' :: (code ++ ['\n']))
      simpa using this
  | cons c m' ih =>
      show hasCodeBlock (c :: (m' ++ fencedBlock code)) = true
      rw [hasCodeBlock]
      split
      · -- a triple starts here; the closing fence is still ahead
        have hlen : 2 ≤ (m' ++ ('\n' :: backtickChar :: backtickChar :: backtickChar ::
            '\n' :: (code ++ ['\n']))).length := by
          simp
          omega
        have hsplit : (m' ++ fencedBlock code).drop 2 =
            ((m' ++ ('\n' :: backtickChar :: backtickChar :: backtickChar :: '\n' ::
              (code ++ ['\n']))).drop 2) ++
              backtickChar :: backtickChar :: backtickChar :: [] := by
          rw [fencedBlock]
          rw [show m' ++ '\n' :: backtickChar :: backtickChar :: backtickChar :: '\n' ::
              (code ++ '\n' :: backtickChar :: backtickChar :: backtickChar :: []) =
            (m' ++ ('\n' :: backtickChar :: backtickChar :: backtickChar :: '\n' ::
              (code ++ ['\n']))) ++ backtickChar :: backtickChar :: backtickChar :: []
            by simp]
          rw [List.drop_append_of_le_length hlen]
        rw [hsplit]
        exact hasTriple_closing _
      · exact ih

/-! ## Append-stability of the capture scanners

A scan that completed (`done`) or mismatched inside the input (`fail`)
gives the same verdict after an append; only `incomplete` (the scan ran
off the end) can change. -/

def StableF (f : List Char → ScanRes α) : Prop :=
  ∀ s t, (∀ a r, f s = .done a r → f (s ++ t) = .done a (r ++ t)) ∧
         (f s = .fail → f (s ++ t) = .fail)

theorem litScan_stable (w : List Char) : StableF (litScan w) := by
  induction w with
  | nil =>
      intro s t
      exact ⟨fun a r h => (by cases h; rfl), fun h => (by cases h)⟩
  | cons c cs ih =>
      intro s t
      cases s with
      | nil => exact ⟨fun a r h => (by cases h), fun h => (by cases h)⟩
      | cons x xs =>
          constructor
          · intro a r h
            rw [litScan] at h
            show litScan (c :: cs) (x :: (xs ++ t)) = _
            rw [litScan]
            split at h
            · rename_i hx
              rw [if_pos hx]
              exact (ih xs t).1 a r h
            · cases h
          · intro h
            rw [litScan] at h
            show litScan (c :: cs) (x :: (xs ++ t)) = _
            rw [litScan]
            split at h
            · rename_i hx
              rw [if_pos hx]
              exact (ih xs t).2 h
            · rename_i hx
              rw [if_neg hx]

theorem spTail_stable : StableF spTail := by
  intro s t
  induction s with
  | nil => exact ⟨fun a r h => (by cases h), fun h => (by cases h)⟩
  | cons c cs ih =>
      constructor
      · intro a r h
        rw [spTail] at h
        show spTail (c :: (cs ++ t)) = _
        rw [spTail]
        split at h
        · rename_i hc
          rw [if_pos hc]
          exact ih.1 a r h
        · rename_i hc
          cases h
          rw [if_neg hc]
          rfl
      · intro h
        rw [spTail] at h
        show spTail (c :: (cs ++ t)) = _
        rw [spTail]
        split at h
        · rename_i hc
          rw [if_pos hc]
          exact ih.2 h
        · cases h

theorem sp1Scan_stable : StableF sp1Scan := by
  intro s t
  cases s with
  | nil => exact ⟨fun a r h => (by cases h), fun h => (by cases h)⟩
  | cons c cs =>
      constructor
      · intro a r h
        rw [sp1Scan] at h
        show sp1Scan (c :: (cs ++ t)) = _
        rw [sp1Scan]
        split at h
        · rename_i hc
          rw [if_pos hc]
          exact (spTail_stable cs t).1 a r h
        · cases h
      · intro h
        rw [sp1Scan] at h
        show sp1Scan (c :: (cs ++ t)) = _
        rw [sp1Scan]
        split at h
        · rename_i hc
          rw [if_pos hc]
          exact (spTail_stable cs t).2 h
        · rename_i hc
          rw [if_neg hc]

theorem optAposScan_stable : StableF optAposScan := by
  intro s t
  cases s with
  | nil => exact ⟨fun a r h => (by cases h), fun h => (by cases h)⟩
  | cons c cs =>
      constructor
      · intro a r h
        rw [optAposScan] at h
        show optAposScan (c :: (cs ++ t)) = _
        rw [optAposScan]
        split at h
        · rename_i hc
          cases h
          rw [if_pos hc]
        · rename_i hc
          cases h
          rw [if_neg hc]
          rfl
      · intro h
        rw [optAposScan] at h
        split at h <;> cases h

theorem quoteScan_stable : StableF quoteScan := by
  intro s t
  cases s with
  | nil => exact ⟨fun a r h => (by cases h), fun h => (by cases h)⟩
  | cons c cs =>
      constructor
      · intro a r h
        rw [quoteScan] at h
        show quoteScan (c :: (cs ++ t)) = _
        rw [quoteScan]
        split at h
        · rename_i hc
          cases h
          rw [if_pos hc]
        · cases h
      · intro h
        rw [quoteScan] at h
        show quoteScan (c :: (cs ++ t)) = _
        rw [quoteScan]
        split at h
        · cases h
        · rename_i hc
          rw [if_neg hc]

theorem dropWhile_append_of_ne_nil (p : Char → Bool) (s t : List Char)
    (h : s.dropWhile p ≠ []) :
    (s ++ t).takeWhile p = s.takeWhile p ∧ (s ++ t).dropWhile p = s.dropWhile p ++ t := by
  induction s with
  | nil => exact absurd rfl h
  | cons c cs ih =>
      by_cases hc : p c
      · have h' : cs.dropWhile p ≠ [] := by
          rw [List.dropWhile_cons, if_pos hc] at h
          exact h
        rcases ih h' with ⟨h1, h2⟩
        constructor
        · show (c :: (cs ++ t)).takeWhile p = _
          rw [List.takeWhile_cons, if_pos hc, h1, List.takeWhile_cons, if_pos hc]
        · show (c :: (cs ++ t)).dropWhile p = _
          rw [List.dropWhile_cons, if_pos hc, h2, List.dropWhile_cons, if_pos hc]
      · constructor
        · show (c :: (cs ++ t)).takeWhile p = _
          rw [List.takeWhile_cons, if_neg hc, List.takeWhile_cons, if_neg hc]
        · show (c :: (cs ++ t)).dropWhile p = _
          rw [List.dropWhile_cons, if_neg hc, List.dropWhile_cons, if_neg hc,
            List.cons_append]

theorem tokQuoteScan_stable : StableF tokQuoteScan := by
  intro s t
  rcases hd : s.dropWhile isTokChar with _ | ⟨c, cs⟩
  · exact ⟨fun a r h => (by rw [tokQuoteScan, hd] at h; cases h),
      fun h => (by rw [tokQuoteScan, hd] at h; cases h)⟩
  · have hne : s.dropWhile isTokChar ≠ [] := by rw [hd]; simp
    rcases dropWhile_append_of_ne_nil isTokChar s t hne with ⟨h1, h2⟩
    have htq : tokQuoteScan s =
        (if (s.takeWhile isTokChar).isEmpty then ScanRes.fail
         else if isQuoteChar c then ScanRes.done (s.takeWhile isTokChar) cs
         else ScanRes.fail) := by
      rw [tokQuoteScan, hd]
    have htq2 : tokQuoteScan (s ++ t) =
        (if (s.takeWhile isTokChar).isEmpty then ScanRes.fail
         else if isQuoteChar c then ScanRes.done (s.takeWhile isTokChar) (cs ++ t)
         else ScanRes.fail) := by
      rw [tokQuoteScan, h2, hd, List.cons_append, h1]
    constructor
    · intro a r h
      rw [htq] at h
      rw [htq2]
      by_cases hemp : (s.takeWhile isTokChar).isEmpty
      · rw [if_pos hemp] at h
        cases h
      · rw [if_neg hemp] at h ⊢
        by_cases hq : isQuoteChar c
        · rw [if_pos hq] at h ⊢
          cases h
          rfl
        · rw [if_neg hq] at h
          cases h
    · intro h
      rw [htq2]
      by_cases hemp : (s.takeWhile isTokChar).isEmpty
      · rw [if_pos hemp]
      · rw [if_neg hemp]
        by_cases hq : isQuoteChar c
        · rw [htq, if_neg hemp, if_pos hq] at h
          cases h
        · rw [if_neg hq]

theorem andThen_stable {α β : Type} {f : List Char → ScanRes α}
    {g : α → List Char → ScanRes β} (hf : StableF f) (hg : ∀ a, StableF (g a)) :
    StableF (fun s => (f s).andThen g) := by
  intro s t
  constructor
  · intro b r h
    have h' : (f s).andThen g = ScanRes.done b r := h
    show (f (s ++ t)).andThen g = _
    rcases hfs : f s with _ | _ | ⟨a, r1⟩ <;> rw [hfs] at h'
    · cases h'
    · cases h'
    · rw [(hf s t).1 a r1 hfs]
      exact (hg a r1 t).1 b r h'
  · intro h
    have h' : (f s).andThen g = ScanRes.fail := h
    show (f (s ++ t)).andThen g = _
    rcases hfs : f s with _ | _ | ⟨a, r1⟩ <;> rw [hfs] at h'
    · rw [(hf s t).2 hfs]
      rfl
    · cases h'
    · rw [(hf s t).1 a r1 hfs]
      exact (hg a r1 t).2 h'

/-! ## Character-class facts and quote counting -/

def allSpace (v : List Char) : Prop := ∀ x ∈ v, isSpaceChar x = true

def allTok (v : List Char) : Prop := ∀ x ∈ v, isTokChar x = true

/-- The quote characters in a string. -/
def countQ (s : List Char) : ℕ := s.countP isQuoteChar

theorem countQ_append (a b : List Char) : countQ (a ++ b) = countQ a + countQ b :=
  List.countP_append _ a b

theorem countQ_cons (c : Char) (s : List Char) :
    countQ (c :: s) = countQ s + (if isQuoteChar c then 1 else 0) := by
  rw [countQ, countQ, List.countP_cons]

theorem countQ_suffix_le (v s : List Char) (h : v <:+ s) : countQ v ≤ countQ s :=
  h.sublist.countP_le _

theorem quote_toLower_eq (q : Char) (h : isQuoteChar q = true) : q.toLower = q := by
  rcases Bool.or_eq_true_iff.mp h with h | h
  · rcases Bool.or_eq_true_iff.mp h with h | h
    · rw [decide_eq_true_iff.mp h]; decide
    · rw [decide_eq_true_iff.mp h]; decide
  · rw [decide_eq_true_iff.mp h]; decide

theorem quote_not_space (q : Char) (hq : isQuoteChar q = true) : isSpaceChar q = false := by
  rcases Bool.or_eq_true_iff.mp hq with h | h
  · rcases Bool.or_eq_true_iff.mp h with h | h <;> · rw [decide_eq_true_iff.mp h]; decide
  · rw [decide_eq_true_iff.mp h]; decide

theorem space_not_quote (c : Char) (hc : isSpaceChar c = true) : isQuoteChar c = false := by
  by_cases h : isQuoteChar c = true
  · rw [quote_not_space c h] at hc
    cases hc
  · exact Bool.not_eq_true _ |>.mp h

theorem tok_not_quote (c : Char) (hc : isTokChar c = true) : isQuoteChar c = false := by
  by_cases h : isQuoteChar c = true
  · exfalso
    rcases Bool.or_eq_true_iff.mp h with h' | h'
    · rcases Bool.or_eq_true_iff.mp h' with h' | h' <;>
        · rw [decide_eq_true_iff.mp h'] at hc; exact absurd hc (by decide)
    · rw [decide_eq_true_iff.mp h'] at hc
      exact absurd hc (by decide)
  · exact Bool.not_eq_true _ |>.mp h

theorem tok_not_space (c : Char) (hc : isTokChar c = true) : isSpaceChar c = false := by
  by_cases h : isSpaceChar c = true
  · exfalso
    have hcl : c = ' ' ∨ c = '\t' ∨ c = '\n' ∨ c = '\r' ∨ c = '\x0b' ∨ c = '\x0c' := by
      rcases Bool.or_eq_true_iff.mp h with h' | h'
      · rcases Bool.or_eq_true_iff.mp h' with h' | h'
        · rcases Bool.or_eq_true_iff.mp h' with h' | h'
          · rcases Bool.or_eq_true_iff.mp h' with h' | h'
            · rcases Bool.or_eq_true_iff.mp h' with h' | h'
              · exact Or.inl (decide_eq_true_iff.mp h')
              · exact Or.inr (Or.inl (decide_eq_true_iff.mp h'))
            · exact Or.inr (Or.inr (Or.inl (decide_eq_true_iff.mp h')))
          · exact Or.inr (Or.inr (Or.inr (Or.inl (decide_eq_true_iff.mp h'))))
        · exact Or.inr (Or.inr (Or.inr (Or.inr (Or.inl (decide_eq_true_iff.mp h')))))
      · exact Or.inr (Or.inr (Or.inr (Or.inr (Or.inr (decide_eq_true_iff.mp h')))))
    rcases hcl with rfl | rfl | rfl | rfl | rfl | rfl <;> exact absurd hc (by decide)
  · exact Bool.not_eq_true _ |>.mp h

theorem quote_not_lower_alpha (q : Char) (hq : isQuoteChar q = true) :
    (q.toLower).isAlpha = false := by
  rw [quote_toLower_eq q hq]
  rcases Bool.or_eq_true_iff.mp hq with h | h
  · rcases Bool.or_eq_true_iff.mp h with h | h <;> · rw [decide_eq_true_iff.mp h]; decide
  · rw [decide_eq_true_iff.mp h]; decide

/-- A region whose lowercased characters all lie in an all-alphabetic
word holds no quote characters. -/
theorem countQ_zero_of_lower_sub (u w : List Char) (hw : ∀ c ∈ w, c.isAlpha = true)
    (hu : ∀ x ∈ u, x.toLower ∈ w) : countQ u = 0 := by
  rw [countQ, List.countP_eq_zero]
  intro x hx hq
  have h1 := hw _ (hu x hx)
  rw [quote_not_lower_alpha x hq] at h1
  cases h1

theorem countQ_zero_of_allSpace (u : List Char) (hu : allSpace u) : countQ u = 0 := by
  rw [countQ, List.countP_eq_zero]
  intro x hx hq
  rw [space_not_quote x (hu x hx)] at hq
  cases hq

theorem countQ_zero_of_allTok (u : List Char) (hu : allTok u) : countQ u = 0 := by
  rw [countQ, List.countP_eq_zero]
  intro x hx hq
  rw [tok_not_quote x (hu x hx)] at hq
  cases hq

/-! ## Inversion of the scan primitives -/

theorem andThen_done_inv {α β : Type} (x : ScanRes α) (g : α → List Char → ScanRes β)
    (b : β) (r : List Char) (h : x.andThen g = .done b r) :
    ∃ a r1, x = .done a r1 ∧ g a r1 = .done b r := by
  cases x with
  | fail => cases h
  | incomplete => cases h
  | done a r1 => exact ⟨a, r1, rfl, h⟩

theorem andThen_incomplete_inv {α β : Type} (x : ScanRes α) (g : α → List Char → ScanRes β)
    (h : x.andThen g = .incomplete) :
    x = .incomplete ∨ ∃ a r1, x = .done a r1 ∧ g a r1 = .incomplete := by
  cases x with
  | fail => cases h
  | incomplete => exact Or.inl rfl
  | done a r1 => exact Or.inr ⟨a, r1, rfl, h⟩

theorem litScan_done_inv (w s : List Char) (a : Unit) (r : List Char)
    (h : litScan w s = .done a r) :
    ∃ u, s = u ++ r ∧ u.map Char.toLower = w := by
  induction w generalizing s with
  | nil =>
      cases h
      exact ⟨[], rfl, rfl⟩
  | cons c cs ih =>
      cases s with
      | nil => cases h
      | cons x xs =>
          rw [litScan] at h
          split at h
          · rename_i hx
            rcases ih xs h with ⟨u, hu1, hu2⟩
            exact ⟨x :: u, by rw [hu1, List.cons_append], by rw [List.map_cons, hu2, hx]⟩
          · cases h

theorem litScan_incomplete_inv (w s : List Char) (h : litScan w s = .incomplete) :
    ∃ w', w = s.map Char.toLower ++ w' ∧ w' ≠ [] := by
  induction w generalizing s with
  | nil =>
      cases s with
      | nil => cases h
      | cons x xs => cases h
  | cons c cs ih =>
      cases s with
      | nil => exact ⟨c :: cs, rfl, by simp⟩
      | cons x xs =>
          rw [litScan] at h
          split at h
          · rename_i hx
            rcases ih xs h with ⟨w', hw1, hw2⟩
            exact ⟨w', by rw [List.map_cons, hx, List.cons_append, ← hw1], hw2⟩
          · cases h

theorem spTail_done_inv (s : List Char) (a : Unit) (r : List Char)
    (h : spTail s = .done a r) : ∃ u, s = u ++ r ∧ allSpace u := by
  induction s with
  | nil => cases h
  | cons c cs ih =>
      rw [spTail] at h
      split at h
      · rename_i hc
        rcases ih h with ⟨u, hu1, hu2⟩
        refine ⟨c :: u, by rw [hu1, List.cons_append], ?_⟩
        intro x hx
        rcases List.mem_cons.mp hx with rfl | hx
        · exact hc
        · exact hu2 x hx
      · cases h
        exact ⟨[], rfl, by intro x hx; cases hx⟩

theorem spTail_incomplete_inv (s : List Char) (h : spTail s = .incomplete) : allSpace s := by
  induction s with
  | nil => intro x hx; cases hx
  | cons c cs ih =>
      rw [spTail] at h
      split at h
      · rename_i hc
        intro x hx
        rcases List.mem_cons.mp hx with rfl | hx
        · exact hc
        · exact ih h x hx
      · cases h

theorem sp1Scan_done_inv (s : List Char) (a : Unit) (r : List Char)
    (h : sp1Scan s = .done a r) : ∃ u, s = u ++ r ∧ allSpace u ∧ u ≠ [] := by
  cases s with
  | nil => cases h
  | cons c cs =>
      rw [sp1Scan] at h
      split at h
      · rename_i hc
        rcases spTail_done_inv cs a r h with ⟨u, hu1, hu2⟩
        refine ⟨c :: u, by rw [hu1, List.cons_append], ?_, by simp⟩
        intro x hx
        rcases List.mem_cons.mp hx with rfl | hx
        · exact hc
        · exact hu2 x hx
      · cases h

theorem sp1Scan_incomplete_inv (s : List Char) (h : sp1Scan s = .incomplete) :
    allSpace s := by
  cases s with
  | nil => intro x hx; cases hx
  | cons c cs =>
      rw [sp1Scan] at h
      split at h
      · rename_i hc
        intro x hx
        rcases List.mem_cons.mp hx with rfl | hx
        · exact hc
        · exact spTail_incomplete_inv cs h x hx
      · cases h

theorem optAposScan_done_inv (s : List Char) (a : Unit) (r : List Char)
    (h : optAposScan s = .done a r) :
    ∃ u, s = u ++ r ∧ (∀ x ∈ u, x = apostropheChar) ∧ u.length ≤ 1 := by
  cases s with
  | nil => cases h
  | cons c cs =>
      rw [optAposScan] at h
      split at h
      · rename_i hc
        cases h
        refine ⟨[c], rfl, ?_, Nat.le_refl 1⟩
        intro x hx
        rcases List.mem_singleton.mp hx with rfl
        exact hc
      · cases h
        refine ⟨[], rfl, ?_, Nat.zero_le 1⟩
        intro x hx
        cases hx

theorem optAposScan_incomplete_inv (s : List Char) (h : optAposScan s = .incomplete) :
    s = [] := by
  cases s with
  | nil => rfl
  | cons c cs =>
      rw [optAposScan] at h
      split at h <;> cases h

theorem quoteScan_done_inv (s : List Char) (a : Unit) (r : List Char)
    (h : quoteScan s = .done a r) : ∃ q, s = q :: r ∧ isQuoteChar q = true := by
  cases s with
  | nil => cases h
  | cons c cs =>
      rw [quoteScan] at h
      split at h
      · rename_i hc
        cases h
        exact ⟨c, rfl, hc⟩
      · cases h

theorem quoteScan_incomplete_inv (s : List Char) (h : quoteScan s = .incomplete) :
    s = [] := by
  cases s with
  | nil => rfl
  | cons c cs =>
      rw [quoteScan] at h
      split at h <;> cases h

theorem tokQuoteScan_done_inv (s : List Char) (tok r : List Char)
    (h : tokQuoteScan s = .done tok r) :
    ∃ q, s = tok ++ q :: r ∧ allTok tok ∧ tok ≠ [] ∧ isQuoteChar q = true := by
  rcases hd : s.dropWhile isTokChar with _ | ⟨c, cs⟩
  · have htq : tokQuoteScan s = .incomplete := by rw [tokQuoteScan, hd]
    rw [htq] at h
    cases h
  · have htq : tokQuoteScan s = (if (s.takeWhile isTokChar).isEmpty then ScanRes.fail
        else if isQuoteChar c then ScanRes.done (s.takeWhile isTokChar) cs
        else ScanRes.fail) := by
      rw [tokQuoteScan, hd]
    rw [htq] at h
    by_cases he : (s.takeWhile isTokChar).isEmpty
    · rw [if_pos he] at h
      cases h
    · rw [if_neg he] at h
      by_cases hq : isQuoteChar c = true
      · rw [if_pos hq] at h
        cases h
        refine ⟨c, ?_, ?_, ?_, hq⟩
        · have hsplit : s = s.takeWhile isTokChar ++ s.dropWhile isTokChar := by
            rw [List.takeWhile_append_dropWhile]
          rw [hd] at hsplit
          exact hsplit
        · intro x hx
          exact List.mem_takeWhile_imp hx
        · intro hnil
          exact he (by rw [hnil]; rfl)
      · rw [if_neg hq] at h
        cases h

theorem tokQuoteScan_incomplete_inv (s : List Char) (h : tokQuoteScan s = .incomplete) :
    allTok s := by
  rcases hd : s.dropWhile isTokChar with _ | ⟨c, cs⟩
  · intro x hx
    exact List.dropWhile_eq_nil_iff.mp hd x hx
  · exfalso
    have htq : tokQuoteScan s = (if (s.takeWhile isTokChar).isEmpty then ScanRes.fail
        else if isQuoteChar c then ScanRes.done (s.takeWhile isTokChar) cs
        else ScanRes.fail) := by
      rw [tokQuoteScan, hd]
    rw [htq] at h
    by_cases he : (s.takeWhile isTokChar).isEmpty
    · rw [if_pos he] at h
      cases h
    · rw [if_neg he] at h
      by_cases hq : isQuoteChar c = true
      · rw [if_pos hq] at h
        cases h
      · rw [if_neg hq] at h
        cases h

/-! ## Stability of the capture-pattern cores -/

theorem doneF_stable {α : Type} (a : α) : StableF (fun r => ScanRes.done a r) := by
  intro s t
  exact ⟨fun b r h => (by cases h; rfl), fun h => (by cases h)⟩

theorem insteadOfCore_stable : StableF insteadOfCore := by
  have h5 : StableF (fun r4 => (quoteScan r4).andThen fun _ r5 => tokQuoteScan r5) :=
    andThen_stable quoteScan_stable fun _ => tokQuoteScan_stable
  have h4 : StableF (fun r3 => (sp1Scan r3).andThen fun _ r4 =>
      (quoteScan r4).andThen fun _ r5 => tokQuoteScan r5) :=
    andThen_stable sp1Scan_stable fun _ => h5
  have h3 : StableF (fun r2 => (litScan "of".toList r2).andThen fun _ r3 =>
      (sp1Scan r3).andThen fun _ r4 =>
      (quoteScan r4).andThen fun _ r5 => tokQuoteScan r5) :=
    andThen_stable (litScan_stable _) fun _ => h4
  have h2 : StableF (fun r1 => (sp1Scan r1).andThen fun _ r2 =>
      (litScan "of".toList r2).andThen fun _ r3 =>
      (sp1Scan r3).andThen fun _ r4 =>
      (quoteScan r4).andThen fun _ r5 => tokQuoteScan r5) :=
    andThen_stable sp1Scan_stable fun _ => h3
  exact andThen_stable (litScan_stable _) fun _ => h2

theorem useInsteadCore_stable : StableF useInsteadCore := by
  have h6 : ∀ tok : List Char, StableF (fun r5 =>
      (litScan "instead".toList r5).andThen fun _ r6 => ScanRes.done tok r6) :=
    fun tok => andThen_stable (litScan_stable _) fun _ => doneF_stable tok
  have h5 : ∀ tok : List Char, StableF (fun r4 => (sp1Scan r4).andThen fun _ r5 =>
      (litScan "instead".toList r5).andThen fun _ r6 => ScanRes.done tok r6) :=
    fun tok => andThen_stable sp1Scan_stable fun _ => h6 tok
  have h4 : StableF (fun r3 => (tokQuoteScan r3).andThen fun tok r4 =>
      (sp1Scan r4).andThen fun _ r5 =>
      (litScan "instead".toList r5).andThen fun _ r6 => ScanRes.done tok r6) :=
    andThen_stable tokQuoteScan_stable fun tok => h5 tok
  have h3 : StableF (fun r2 => (quoteScan r2).andThen fun _ r3 =>
      (tokQuoteScan r3).andThen fun tok r4 =>
      (sp1Scan r4).andThen fun _ r5 =>
      (litScan "instead".toList r5).andThen fun _ r6 => ScanRes.done tok r6) :=
    andThen_stable quoteScan_stable fun _ => h4
  have h2 : StableF (fun r1 => (sp1Scan r1).andThen fun _ r2 =>
      (quoteScan r2).andThen fun _ r3 =>
      (tokQuoteScan r3).andThen fun tok r4 =>
      (sp1Scan r4).andThen fun _ r5 =>
      (litScan "instead".toList r5).andThen fun _ r6 => ScanRes.done tok r6) :=
    andThen_stable sp1Scan_stable fun _ => h3
  exact andThen_stable (litScan_stable _) fun _ => h2

theorem dontUseCore_stable : StableF dontUseCore := by
  have h7 : StableF (fun r6 => (quoteScan r6).andThen fun _ r7 => tokQuoteScan r7) :=
    andThen_stable quoteScan_stable fun _ => tokQuoteScan_stable
  have h6 : StableF (fun r5 => (sp1Scan r5).andThen fun _ r6 =>
      (quoteScan r6).andThen fun _ r7 => tokQuoteScan r7) :=
    andThen_stable sp1Scan_stable fun _ => h7
  have h5 : StableF (fun r4 => (litScan "use".toList r4).andThen fun _ r5 =>
      (sp1Scan r5).andThen fun _ r6 =>
      (quoteScan r6).andThen fun _ r7 => tokQuoteScan r7) :=
    andThen_stable (litScan_stable _) fun _ => h6
  have h4 : StableF (fun r3 => (sp1Scan r3).andThen fun _ r4 =>
      (litScan "use".toList r4).andThen fun _ r5 =>
      (sp1Scan r5).andThen fun _ r6 =>
      (quoteScan r6).andThen fun _ r7 => tokQuoteScan r7) :=
    andThen_stable sp1Scan_stable fun _ => h5
  have h3 : StableF (fun r2 => (litScan "t".toList r2).andThen fun _ r3 =>
      (sp1Scan r3).andThen fun _ r4 =>
      (litScan "use".toList r4).andThen fun _ r5 =>
      (sp1Scan r5).andThen fun _ r6 =>
      (quoteScan r6).andThen fun _ r7 => tokQuoteScan r7) :=
    andThen_stable (litScan_stable _) fun _ => h4
  have h2 : StableF (fun r1 => (optAposScan r1).andThen fun _ r2 =>
      (litScan "t".toList r2).andThen fun _ r3 =>
      (sp1Scan r3).andThen fun _ r4 =>
      (litScan "use".toList r4).andThen fun _ r5 =>
      (sp1Scan r5).andThen fun _ r6 =>
      (quoteScan r6).andThen fun _ r7 => tokQuoteScan r7) :=
    andThen_stable optAposScan_stable fun _ => h3
  exact andThen_stable (litScan_stable _) fun _ => h2

theorem changeToCore_stable : StableF changeToCore := by
  have h9 : ∀ tok : List Char, StableF (fun r8 =>
      (tokQuoteScan r8).andThen fun _ r9 => ScanRes.done tok r9) :=
    fun tok => andThen_stable tokQuoteScan_stable fun _ => doneF_stable tok
  have h8 : ∀ tok : List Char, StableF (fun r7 => (quoteScan r7).andThen fun _ r8 =>
      (tokQuoteScan r8).andThen fun _ r9 => ScanRes.done tok r9) :=
    fun tok => andThen_stable quoteScan_stable fun _ => h9 tok
  have h7 : ∀ tok : List Char, StableF (fun r6 => (sp1Scan r6).andThen fun _ r7 =>
      (quoteScan r7).andThen fun _ r8 =>
      (tokQuoteScan r8).andThen fun _ r9 => ScanRes.done tok r9) :=
    fun tok => andThen_stable sp1Scan_stable fun _ => h8 tok
  have h6 : ∀ tok : List Char, StableF (fun r5 =>
      (litScan "to".toList r5).andThen fun _ r6 =>
      (sp1Scan r6).andThen fun _ r7 =>
      (quoteScan r7).andThen fun _ r8 =>
      (tokQuoteScan r8).andThen fun _ r9 => ScanRes.done tok r9) :=
    fun tok => andThen_stable (litScan_stable _) fun _ => h7 tok
  have h5 : ∀ tok : List Char, StableF (fun r4 => (sp1Scan r4).andThen fun _ r5 =>
      (litScan "to".toList r5).andThen fun _ r6 =>
      (sp1Scan r6).andThen fun _ r7 =>
      (quoteScan r7).andThen fun _ r8 =>
      (tokQuoteScan r8).andThen fun _ r9 => ScanRes.done tok r9) :=
    fun tok => andThen_stable sp1Scan_stable fun _ => h6 tok
  have h4 : StableF (fun r3 => (tokQuoteScan r3).andThen fun tok r4 =>
      (sp1Scan r4).andThen fun _ r5 =>
      (litScan "to".toList r5).andThen fun _ r6 =>
      (sp1Scan r6).andThen fun _ r7 =>
      (quoteScan r7).andThen fun _ r8 =>
      (tokQuoteScan r8).andThen fun _ r9 => ScanRes.done tok r9) :=
    andThen_stable tokQuoteScan_stable fun tok => h5 tok
  have h3 : StableF (fun r2 => (quoteScan r2).andThen fun _ r3 =>
      (tokQuoteScan r3).andThen fun tok r4 =>
      (sp1Scan r4).andThen fun _ r5 =>
      (litScan "to".toList r5).andThen fun _ r6 =>
      (sp1Scan r6).andThen fun _ r7 =>
      (quoteScan r7).andThen fun _ r8 =>
      (tokQuoteScan r8).andThen fun _ r9 => ScanRes.done tok r9) :=
    andThen_stable quoteScan_stable fun _ => h4
  have h2 : StableF (fun r1 => (sp1Scan r1).andThen fun _ r2 =>
      (quoteScan r2).andThen fun _ r3 =>
      (tokQuoteScan r3).andThen fun tok r4 =>
      (sp1Scan r4).andThen fun _ r5 =>
      (litScan "to".toList r5).andThen fun _ r6 =>
      (sp1Scan r6).andThen fun _ r7 =>
      (quoteScan r7).andThen fun _ r8 =>
      (tokQuoteScan r8).andThen fun _ r9 => ScanRes.done tok r9) :=
    andThen_stable sp1Scan_stable fun _ => h3
  exact andThen_stable (litScan_stable _) fun _ => h2

theorem withWb_stable {α : Type} (core : List Char → ScanRes α) (hc : StableF core)
    (prev : Option Char) : StableF (withWb core prev) := by
  intro s t
  by_cases hw : isWordOpt prev = true
  · constructor
    · intro a r h
      rw [withWb, if_pos hw] at h
      cases h
    · intro h
      rw [withWb, if_pos hw]
  · constructor
    · intro a r h
      rw [withWb, if_neg hw] at h
      rw [withWb, if_neg hw]
      exact (hc s t).1 a r h
    · intro h
      rw [withWb, if_neg hw] at h
      rw [withWb, if_neg hw]
      exact (hc s t).2 h

/-! ## The leftmost match survives an append -/

theorem suffix_append_cases {v x y : List Char} (h : v <:+ x ++ y) :
    v <:+ y ∨ ∃ v1, v1 <:+ x ∧ v1 ≠ [] ∧ v = v1 ++ y := by
  induction x with
  | nil => exact Or.inl h
  | cons a x' ih =>
      rcases List.suffix_cons_iff.mp h with rfl | h'
      · exact Or.inr ⟨a :: x', List.suffix_refl _, by simp, rfl⟩
      · rcases ih h' with h'' | ⟨v1, hs, hne, rfl⟩
        · exact Or.inl h''
        · exact Or.inr ⟨v1, hs.trans (List.suffix_cons a x'), hne, rfl⟩

theorem scanFirst_done_head (tryAt : Option Char → List Char → ScanRes (List Char))
    (prev : Option Char) (s : List Char) (a r : List Char)
    (h : tryAt prev s = .done a r) : scanFirst tryAt prev s = some a := by
  cases s with
  | nil => rw [scanFirst, h]
  | cons c cs => rw [scanFirst, h]

theorem scanFirst_none_of (tryAt : Option Char → List Char → ScanRes (List Char))
    (s : List Char)
    (hnd : ∀ prev v, v <:+ s → ∀ a r, tryAt prev v ≠ .done a r) :
    ∀ prev, scanFirst tryAt prev s = none := by
  induction s with
  | nil =>
      intro prev
      rw [scanFirst]
      rcases ht : tryAt prev [] with _ | _ | ⟨a, r⟩
      · rfl
      · rfl
      · exact absurd ht (hnd prev [] List.nil_suffix a r)
  | cons c cs ih =>
      intro prev
      rw [scanFirst]
      rcases ht : tryAt prev (c :: cs) with _ | _ | ⟨a, r⟩
      · exact ih (fun p v hv a r => hnd p v (hv.trans (List.suffix_cons c cs)) a r)
          (some c)
      · exact ih (fun p v hv a r => hnd p v (hv.trans (List.suffix_cons c cs)) a r)
          (some c)
      · exact absurd ht (hnd prev (c :: cs) (List.suffix_refl _) a r)

/-- If no already-started match can still complete further right (the
`hnl` hypothesis), the leftmost capture is unchanged by appending text. -/
theorem scanFirst_append (tryAt : Option Char → List Char → ScanRes (List Char))
    (hstab : ∀ prev, StableF (tryAt prev))
    (hnl : ∀ prev c cs, tryAt prev (c :: cs) = .incomplete →
      ∀ p v, v <:+ cs → ∀ a r, tryAt p v ≠ .done a r)
    (t : List Char) :
    ∀ prev s v, scanFirst tryAt prev s = some v →
      scanFirst tryAt prev (s ++ t) = some v := by
  intro prev s
  induction s generalizing prev with
  | nil =>
      intro v h
      rw [scanFirst] at h
      rcases ht : tryAt prev [] with _ | _ | ⟨a, r⟩ <;> rw [ht] at h
      · cases h
      · cases h
      · cases h
        have hd : tryAt prev ([] ++ t) = .done v (r ++ t) := (hstab prev [] t).1 v r ht
        exact scanFirst_done_head tryAt prev ([] ++ t) v (r ++ t) hd
  | cons c cs ih =>
      intro v h
      rw [scanFirst] at h
      show scanFirst tryAt prev (c :: (cs ++ t)) = some v
      rw [scanFirst]
      rcases ht : tryAt prev (c :: cs) with _ | _ | ⟨a, r⟩ <;> rw [ht] at h
      · have hf : tryAt prev (c :: (cs ++ t)) = .fail := (hstab prev (c :: cs) t).2 ht
        rw [hf]
        exact ih (some c) v h
      · exfalso
        have hn := scanFirst_none_of tryAt cs (hnl prev c cs ht) (some c)
        rw [hn] at h
        cases h
      · cases h
        have hd : tryAt prev (c :: (cs ++ t)) = .done v (r ++ t) :=
          (hstab prev (c :: cs) t).1 v r ht
        rw [hd]

theorem filterMap_sublist_mono {α β : Type} (l : List α) (f g : α → Option β)
    (h : ∀ x ∈ l, ∀ b, f x = some b → g x = some b) :
    List.Sublist (l.filterMap f) (l.filterMap g) := by
  induction l with
  | nil => exact List.Sublist.refl _
  | cons x xs ih =>
      rw [List.filterMap_cons, List.filterMap_cons]
      have hxs := ih fun y hy => h y (List.mem_cons_of_mem x hy)
      rcases hf : f x with _ | b
      · rcases hg : g x with _ | c
        · exact hxs
        · exact hxs.cons c
      · rw [h x (List.mem_cons_self x xs) b hf]
        exact hxs.cons₂ b

theorem withWb_noLater {α : Type} (core : List Char → ScanRes α)
    (hcore : ∀ c cs, core (c :: cs) = .incomplete →
      ∀ v, v <:+ cs → ∀ a r, core v ≠ .done a r) :
    ∀ prev c cs, withWb core prev (c :: cs) = .incomplete →
      ∀ p v, v <:+ cs → ∀ a r, withWb core p v ≠ .done a r := by
  intro prev c cs h p v hv a r hd
  rw [withWb] at h
  rw [withWb] at hd
  split at h
  · cases h
  · split at hd
    · cases hd
    · exact hcore c cs h v hv a r hd

/-! ## No already-started capture can complete further right

Each capture pattern needs two quote characters around the identifier
(`changeToCore` needs four); where its scan runs out of input, the input
holds at most one (three) quote characters, and suffixes hold no more. -/

theorem countQ_nil : countQ [] = 0 := rfl

theorem countQ_zero_of_caseless (u w : List Char) (hw : ∀ c ∈ w, c.isAlpha = true)
    (h : u.map Char.toLower = w) : countQ u = 0 :=
  countQ_zero_of_lower_sub u w hw fun x hx => h ▸ List.mem_map_of_mem _ hx

theorem countQ_zero_of_lower_front (s w w' : List Char)
    (hw : ∀ c ∈ w, c.isAlpha = true) (h : w = s.map Char.toLower ++ w') :
    countQ s = 0 :=
  countQ_zero_of_lower_sub s w hw fun x hx => by
    rw [h]
    exact List.mem_append_left _ (List.mem_map_of_mem _ hx)

/-- Full decomposition of a successful `instead of`-pattern scan. -/
theorem insteadOfCore_done_decomp (s : List Char) (a r : List Char)
    (h : insteadOfCore s = .done a r) :
    ∃ u7 usp uof usp2 q qc,
      s = u7 ++ (usp ++ (uof ++ (usp2 ++ q :: (a ++ qc :: r)))) ∧
      u7.map Char.toLower = "instead".toList ∧ allSpace usp ∧ usp ≠ [] ∧
      uof.map Char.toLower = "of".toList ∧ allSpace usp2 ∧ usp2 ≠ [] ∧
      isQuoteChar q = true ∧ allTok a ∧ a ≠ [] ∧ isQuoteChar qc = true := by
  rw [insteadOfCore] at h
  rcases andThen_done_inv _ _ _ _ h with ⟨_, r1, h1, g1⟩
  rcases andThen_done_inv _ _ _ _ g1 with ⟨_, r2, h2, g2⟩
  rcases andThen_done_inv _ _ _ _ g2 with ⟨_, r3, h3, g3⟩
  rcases andThen_done_inv _ _ _ _ g3 with ⟨_, r4, h4, g4⟩
  rcases andThen_done_inv _ _ _ _ g4 with ⟨_, r5, h5, g5⟩
  rcases litScan_done_inv _ _ _ _ h1 with ⟨u7, rfl, hu7⟩
  rcases sp1Scan_done_inv _ _ _ h2 with ⟨usp, rfl, husp, hspne⟩
  rcases litScan_done_inv _ _ _ _ h3 with ⟨uof, rfl, huof⟩
  rcases sp1Scan_done_inv _ _ _ h4 with ⟨usp2, rfl, husp2, hspne2⟩
  rcases quoteScan_done_inv _ _ _ h5 with ⟨q, rfl, hq⟩
  rcases tokQuoteScan_done_inv _ _ _ g5 with ⟨qc, rfl, htok, htokne, hqc⟩
  exact ⟨u7, usp, uof, usp2, q, qc, rfl, hu7, husp, hspne, huof, husp2, hspne2,
    hq, htok, htokne, hqc⟩

theorem insteadOfCore_done_countQ (s : List Char) (a r : List Char)
    (h : insteadOfCore s = .done a r) : 2 ≤ countQ s := by
  rcases insteadOfCore_done_decomp s a r h with
    ⟨u7, usp, uof, usp2, q, qc, rfl, hu7, husp, hspne, huof, husp2, hspne2,
      hq, htok, htokne, hqc⟩
  simp only [countQ_append, countQ_cons, if_pos hq, if_pos hqc]
  omega

theorem insteadOfCore_incomplete_countQ (s : List Char)
    (h : insteadOfCore s = .incomplete) : countQ s ≤ 1 := by
  rw [insteadOfCore] at h
  rcases andThen_incomplete_inv _ _ h with h1 | ⟨_, r1, h1, g1⟩
  · rcases litScan_incomplete_inv _ _ h1 with ⟨w', hw, hne⟩
    rw [countQ_zero_of_lower_front s _ w' (by decide) hw]
    omega
  · rcases litScan_done_inv _ _ _ _ h1 with ⟨u7, rfl, hu7⟩
    have c7 : countQ u7 = 0 := countQ_zero_of_caseless u7 _ (by decide) hu7
    rcases andThen_incomplete_inv _ _ g1 with h2 | ⟨_, r2, h2, g2⟩
    · rw [countQ_append, c7, countQ_zero_of_allSpace _ (sp1Scan_incomplete_inv _ h2)]
      omega
    · rcases sp1Scan_done_inv _ _ _ h2 with ⟨usp, rfl, husp, hspne⟩
      have csp : countQ usp = 0 := countQ_zero_of_allSpace _ husp
      rcases andThen_incomplete_inv _ _ g2 with h3 | ⟨_, r3, h3, g3⟩
      · rcases litScan_incomplete_inv _ _ h3 with ⟨w', hw, hne⟩
        rw [countQ_append, countQ_append, c7, csp,
          countQ_zero_of_lower_front r2 _ w' (by decide) hw]
        omega
      · rcases litScan_done_inv _ _ _ _ h3 with ⟨uof, rfl, huof⟩
        have cof : countQ uof = 0 := countQ_zero_of_caseless uof _ (by decide) huof
        rcases andThen_incomplete_inv _ _ g3 with h4 | ⟨_, r4, h4, g4⟩
        · rw [countQ_append, countQ_append, countQ_append, c7, csp, cof,
            countQ_zero_of_allSpace _ (sp1Scan_incomplete_inv _ h4)]
          omega
        · rcases sp1Scan_done_inv _ _ _ h4 with ⟨usp2, rfl, husp2, hspne2⟩
          have csp2 : countQ usp2 = 0 := countQ_zero_of_allSpace _ husp2
          rcases andThen_incomplete_inv _ _ g4 with h5 | ⟨_, r5, h5, g5⟩
          · obtain rfl := quoteScan_incomplete_inv _ h5
            simp only [countQ_append, countQ_nil, c7, csp, cof, csp2]
            omega
          · rcases quoteScan_done_inv _ _ _ h5 with ⟨q, rfl, hq⟩
            have htok := tokQuoteScan_incomplete_inv _ g5
            simp only [countQ_append, countQ_cons, if_pos hq, c7, csp, cof, csp2,
              countQ_zero_of_allTok _ htok]
            omega

/-- Wherever the `instead of` scan reports `incomplete`, no suffix of the
remaining text completes it. -/
theorem insteadOfCore_noLater (c : Char) (cs : List Char)
    (h : insteadOfCore (c :: cs) = .incomplete) :
    ∀ v, v <:+ cs → ∀ a r, insteadOfCore v ≠ .done a r := by
  intro v hv a r hd
  have h1 : countQ v ≤ 1 := le_trans (countQ_suffix_le v cs hv)
    (le_trans (countQ_suffix_le cs (c :: cs) (List.suffix_cons c cs))
      (insteadOfCore_incomplete_countQ _ h))
  have h2 := insteadOfCore_done_countQ v a r hd
  omega

theorem changeToCore_done_countQ (s : List Char) (a r : List Char)
    (h : changeToCore s = .done a r) : 4 ≤ countQ s := by
  rw [changeToCore] at h
  rcases andThen_done_inv _ _ _ _ h with ⟨_, r1, h1, g1⟩
  rcases andThen_done_inv _ _ _ _ g1 with ⟨_, r2, h2, g2⟩
  rcases andThen_done_inv _ _ _ _ g2 with ⟨_, r3, h3, g3⟩
  rcases andThen_done_inv _ _ _ _ g3 with ⟨tok, r4, h4, g4⟩
  rcases andThen_done_inv _ _ _ _ g4 with ⟨_, r5, h5, g5⟩
  rcases andThen_done_inv _ _ _ _ g5 with ⟨_, r6, h6, g6⟩
  rcases andThen_done_inv _ _ _ _ g6 with ⟨_, r7, h7, g7⟩
  rcases andThen_done_inv _ _ _ _ g7 with ⟨_, r8, h8, g8⟩
  rcases andThen_done_inv _ _ _ _ g8 with ⟨tok2, r9, h9, g9⟩
  rcases litScan_done_inv _ _ _ _ h1 with ⟨u6, rfl, hu6⟩
  rcases sp1Scan_done_inv _ _ _ h2 with ⟨usp, rfl, husp, hspne⟩
  rcases quoteScan_done_inv _ _ _ h3 with ⟨q1, rfl, hq1⟩
  rcases tokQuoteScan_done_inv _ _ _ h4 with ⟨q2, rfl, htok1, htokne1, hq2⟩
  rcases sp1Scan_done_inv _ _ _ h5 with ⟨usp2, rfl, husp2, hspne2⟩
  rcases litScan_done_inv _ _ _ _ h6 with ⟨u2, rfl, hu2⟩
  rcases sp1Scan_done_inv _ _ _ h7 with ⟨usp3, rfl, husp3, hspne3⟩
  rcases quoteScan_done_inv _ _ _ h8 with ⟨q3, rfl, hq3⟩
  rcases tokQuoteScan_done_inv _ _ _ h9 with ⟨q4, rfl, htok2, htokne2, hq4⟩
  simp only [countQ_append, countQ_cons, if_pos hq1, if_pos hq2, if_pos hq3, if_pos hq4]
  omega

theorem changeToCore_incomplete_countQ (s : List Char)
    (h : changeToCore s = .incomplete) : countQ s ≤ 3 := by
  rw [changeToCore] at h
  rcases andThen_incomplete_inv _ _ h with h1 | ⟨_, r1, h1, g1⟩
  · rcases litScan_incomplete_inv _ _ h1 with ⟨w', hw, hne⟩
    rw [countQ_zero_of_lower_front s _ w' (by decide) hw]
    omega
  · rcases litScan_done_inv _ _ _ _ h1 with ⟨u6, rfl, hu6⟩
    have c6 : countQ u6 = 0 := countQ_zero_of_caseless u6 _ (by decide) hu6
    rcases andThen_incomplete_inv _ _ g1 with h2 | ⟨_, r2, h2, g2⟩
    · rw [countQ_append, c6, countQ_zero_of_allSpace _ (sp1Scan_incomplete_inv _ h2)]
      omega
    · rcases sp1Scan_done_inv _ _ _ h2 with ⟨usp, rfl, husp, hspne⟩
      have csp : countQ usp = 0 := countQ_zero_of_allSpace _ husp
      rcases andThen_incomplete_inv _ _ g2 with h3 | ⟨_, r3, h3, g3⟩
      · obtain rfl := quoteScan_incomplete_inv _ h3
        simp only [countQ_append, countQ_nil, c6, csp]
        omega
      · rcases quoteScan_done_inv _ _ _ h3 with ⟨q1, rfl, hq1⟩
        rcases andThen_incomplete_inv _ _ g3 with h4 | ⟨tok, r4, h4, g4⟩
        · have htok := tokQuoteScan_incomplete_inv _ h4
          simp only [countQ_append, countQ_cons, if_pos hq1, c6, csp,
            countQ_zero_of_allTok _ htok]
          omega
        · rcases tokQuoteScan_done_inv _ _ _ h4 with ⟨q2, rfl, htok1, htokne1, hq2⟩
          have ct1 : countQ tok = 0 := countQ_zero_of_allTok _ htok1
          rcases andThen_incomplete_inv _ _ g4 with h5 | ⟨_, r5, h5, g5⟩
          · simp only [countQ_append, countQ_cons, if_pos hq1, if_pos hq2, c6, csp,
              ct1, countQ_zero_of_allSpace _ (sp1Scan_incomplete_inv _ h5)]
            omega
          · rcases sp1Scan_done_inv _ _ _ h5 with ⟨usp2, rfl, husp2, hspne2⟩
            have csp2 : countQ usp2 = 0 := countQ_zero_of_allSpace _ husp2
            rcases andThen_incomplete_inv _ _ g5 with h6 | ⟨_, r6, h6, g6⟩
            · rcases litScan_incomplete_inv _ _ h6 with ⟨w', hw, hne⟩
              simp only [countQ_append, countQ_cons, if_pos hq1, if_pos hq2, c6, csp,
                ct1, csp2, countQ_zero_of_lower_front r5 _ w' (by decide) hw]
              omega
            · rcases litScan_done_inv _ _ _ _ h6 with ⟨u2, rfl, hu2⟩
              have c2 : countQ u2 = 0 := countQ_zero_of_caseless u2 _ (by decide) hu2
              rcases andThen_incomplete_inv _ _ g6 with h7 | ⟨_, r7, h7, g7⟩
              · simp only [countQ_append, countQ_cons, if_pos hq1, if_pos hq2, c6, csp,
                  ct1, csp2, c2, countQ_zero_of_allSpace _ (sp1Scan_incomplete_inv _ h7)]
                omega
              · rcases sp1Scan_done_inv _ _ _ h7 with ⟨usp3, rfl, husp3, hspne3⟩
                have csp3 : countQ usp3 = 0 := countQ_zero_of_allSpace _ husp3
                rcases andThen_incomplete_inv _ _ g7 with h8 | ⟨_, r8, h8, g8⟩
                · obtain rfl := quoteScan_incomplete_inv _ h8
                  simp only [countQ_append, countQ_cons, countQ_nil, if_pos hq1,
                    if_pos hq2, c6, csp, ct1, csp2, c2, csp3]
                  omega
                · rcases quoteScan_done_inv _ _ _ h8 with ⟨q3, rfl, hq3⟩
                  rcases andThen_incomplete_inv _ _ g8 with h9 | ⟨tok2, r9, h9, g9⟩
                  · have htok2 := tokQuoteScan_incomplete_inv _ h9
                    simp only [countQ_append, countQ_cons, if_pos hq1, if_pos hq2,
                      if_pos hq3, c6, csp, ct1, csp2, c2, csp3,
                      countQ_zero_of_allTok _ htok2]
                    omega
                  · rcases tokQuoteScan_done_inv _ _ _ h9 with ⟨q4, rfl, ht2, htn2, hq4⟩
                    cases g9

theorem changeToCore_noLater (c : Char) (cs : List Char)
    (h : changeToCore (c :: cs) = .incomplete) :
    ∀ v, v <:+ cs → ∀ a r, changeToCore v ≠ .done a r := by
  intro v hv a r hd
  have h1 : countQ v ≤ 3 := le_trans (countQ_suffix_le v cs hv)
    (le_trans (countQ_suffix_le cs (c :: cs) (List.suffix_cons c cs))
      (changeToCore_incomplete_countQ _ h))
  have h2 := changeToCore_done_countQ v a r hd
  omega

/-! ## Positional analysis for `use X instead` and `do not use X` -/

theorem spaceChar_cases (c : Char) (h : isSpaceChar c = true) :
    c = ' ' ∨ c = '\t' ∨ c = '\n' ∨ c = '\r' ∨ c = '\x0b' ∨ c = '\x0c' := by
  rcases Bool.or_eq_true_iff.mp h with h' | h'
  · rcases Bool.or_eq_true_iff.mp h' with h' | h'
    · rcases Bool.or_eq_true_iff.mp h' with h' | h'
      · rcases Bool.or_eq_true_iff.mp h' with h' | h'
        · rcases Bool.or_eq_true_iff.mp h' with h' | h'
          · exact Or.inl (decide_eq_true_iff.mp h')
          · exact Or.inr (Or.inl (decide_eq_true_iff.mp h'))
        · exact Or.inr (Or.inr (Or.inl (decide_eq_true_iff.mp h')))
      · exact Or.inr (Or.inr (Or.inr (Or.inl (decide_eq_true_iff.mp h'))))
    · exact Or.inr (Or.inr (Or.inr (Or.inr (Or.inl (decide_eq_true_iff.mp h')))))
  · exact Or.inr (Or.inr (Or.inr (Or.inr (Or.inr (decide_eq_true_iff.mp h')))))

theorem space_toLower_not_alpha (c : Char) (h : isSpaceChar c = true) :
    (c.toLower).isAlpha = false := by
  rcases spaceChar_cases c h with rfl | rfl | rfl | rfl | rfl | rfl <;> decide

theorem quote_not_mem_alpha_list (q : Char) (hq : isQuoteChar q = true)
    (w : List Char) (hw : ∀ c ∈ w, c.isAlpha = true) (h : q.toLower ∈ w) : False := by
  have h1 := hw _ h
  rw [quote_not_lower_alpha q hq] at h1
  cases h1

theorem head_lower_mem (v1 u w : List Char) (x : Char) (xs : List Char)
    (hs : v1 <:+ u) (hm : u.map Char.toLower = w) (hv : v1 = x :: xs) :
    x.toLower ∈ w := by
  have hx : x ∈ u := hs.subset (by rw [hv]; exact List.mem_cons_self x xs)
  rw [← hm]
  exact List.mem_map_of_mem _ hx

theorem head_lower_mem_tail (v1 u w : List Char) (x : Char) (xs : List Char)
    (hs : v1 <:+ u) (hlen : v1.length < u.length) (hm : u.map Char.toLower = w)
    (hv : v1 = x :: xs) : x.toLower ∈ w.tail := by
  subst hv
  rcases hs with ⟨pre, hpre⟩
  cases pre with
  | nil =>
      exfalso
      rw [List.nil_append] at hpre
      rw [← hpre] at hlen
      exact lt_irrefl _ hlen
  | cons p ps =>
      have hw : w = p.toLower ::
          (ps.map Char.toLower ++ x.toLower :: xs.map Char.toLower) := by
        rw [← hm, ← hpre]
        simp
      rw [hw]
      exact List.mem_append_right _ (List.mem_cons_self _ _)

theorem map_lower_head (x : Char) (u w : List Char) (y : Char) (ys : List Char)
    (hm : List.map Char.toLower (x :: u) = w) (hw : w = y :: ys) :
    x.toLower = y := by
  rw [hw, List.map_cons] at hm
  have h2 := congrArg List.head? hm
  simpa using h2

/-- Full decomposition of a successful `use X instead` scan. -/
theorem useInsteadCore_done_decomp (s : List Char) (a r : List Char)
    (h : useInsteadCore s = .done a r) :
    ∃ u3 usp q1 qc usp2 u7,
      s = u3 ++ (usp ++ (q1 :: (a ++ qc :: (usp2 ++ (u7 ++ r))))) ∧
      u3.map Char.toLower = "use".toList ∧ allSpace usp ∧ usp ≠ [] ∧
      isQuoteChar q1 = true ∧ allTok a ∧ a ≠ [] ∧ isQuoteChar qc = true ∧
      allSpace usp2 ∧ usp2 ≠ [] ∧ u7.map Char.toLower = "instead".toList := by
  rw [useInsteadCore] at h
  rcases andThen_done_inv _ _ _ _ h with ⟨_, r1, h1, g1⟩
  rcases andThen_done_inv _ _ _ _ g1 with ⟨_, r2, h2, g2⟩
  rcases andThen_done_inv _ _ _ _ g2 with ⟨_, r3, h3, g3⟩
  rcases andThen_done_inv _ _ _ _ g3 with ⟨tok, r4, h4, g4⟩
  rcases andThen_done_inv _ _ _ _ g4 with ⟨_, r5, h5, g5⟩
  rcases andThen_done_inv _ _ _ _ g5 with ⟨_, r6, h6, g6⟩
  have g6' : ScanRes.done tok r6 = ScanRes.done a r := g6
  cases g6'
  rcases litScan_done_inv _ _ _ _ h1 with ⟨u3, rfl, hu3⟩
  rcases sp1Scan_done_inv _ _ _ h2 with ⟨usp, rfl, husp, hspne⟩
  rcases quoteScan_done_inv _ _ _ h3 with ⟨q1, rfl, hq1⟩
  rcases tokQuoteScan_done_inv _ _ _ h4 with ⟨qc, rfl, htok, htokne, hqc⟩
  rcases sp1Scan_done_inv _ _ _ h5 with ⟨usp2, rfl, husp2, hspne2⟩
  rcases litScan_done_inv _ _ _ _ h6 with ⟨u7, rfl, hu7⟩
  exact ⟨u3, usp, q1, qc, usp2, u7, rfl, hu3, husp, hspne, hq1, htok, htokne,
    hqc, husp2, hspne2, hu7⟩

theorem useInsteadCore_done_countQ (s : List Char) (a r : List Char)
    (h : useInsteadCore s = .done a r) : 2 ≤ countQ s := by
  rcases useInsteadCore_done_decomp s a r h with
    ⟨u3, usp, q1, qc, usp2, u7, rfl, hu3, husp, hspne, hq1, htok, htokne,
      hqc, husp2, hspne2, hu7⟩
  simp only [countQ_append, countQ_cons, if_pos hq1, if_pos hqc]
  omega

theorem useInsteadCore_done_head (s : List Char) (a r : List Char)
    (h : useInsteadCore s = .done a r) :
    ∃ x xs, s = x :: xs ∧ x.toLower = 'u' := by
  rcases useInsteadCore_done_decomp s a r h with
    ⟨u3, usp, q1, qc, usp2, u7, hs, hu3, _⟩
  cases u3 with
  | nil => exact absurd hu3 (by decide)
  | cons x u3' =>
      exact ⟨x, _, by rw [hs, List.cons_append],
        map_lower_head x u3' _ 'u' ['s', 'e'] hu3 (by decide)⟩

/-- A `use X instead` match never starts inside the quoted identifier:
right after a token run and a closing quote there is no room for the
mandatory whitespace before the opening quote. -/
theorem useInsteadCore_not_done_mid (w : List Char) (q : Char) (z : List Char)
    (hw : allTok w) (hq : isQuoteChar q = true) :
    ∀ a r, useInsteadCore (w ++ q :: z) ≠ .done a r := by
  intro a r hd
  rcases useInsteadCore_done_decomp _ a r hd with
    ⟨u3, usp, q1, qc, usp2, u7, hs, hu3, husp, hspne, hq1, htok, htokne,
      hqc, husp2, hspne2, hu7⟩
  rcases List.append_eq_append_iff.mp hs with ⟨a', ha1, ha2⟩ | ⟨c', hc1, hc2⟩
  · cases a' with
    | nil =>
        rw [List.nil_append] at ha2
        cases usp with
        | nil => exact hspne rfl
        | cons y usp' =>
            rw [List.cons_append] at ha2
            injection ha2 with e1 e2
            have hsy : isSpaceChar y = true := husp y (List.mem_cons_self y usp')
            rw [← e1, quote_not_space q hq] at hsy
            cases hsy
    | cons x a'' =>
        rw [List.cons_append] at ha2
        injection ha2 with e1 e2
        have hxmem : x ∈ u3 := by
          rw [ha1]
          exact List.mem_append_right _ (List.mem_cons_self x a'')
        have hql : q.toLower ∈ "use".toList := by
          rw [← hu3, e1]
          exact List.mem_map_of_mem _ hxmem
        exact quote_not_mem_alpha_list q hq _ (by decide) hql
  · cases usp with
    | nil => exact hspne rfl
    | cons y usp' =>
        rw [List.cons_append] at hc2
        cases c' with
        | nil =>
            rw [List.nil_append] at hc2
            injection hc2 with e1 e2
            have hsy : isSpaceChar y = true := husp y (List.mem_cons_self y usp')
            rw [e1, quote_not_space q hq] at hsy
            cases hsy
        | cons x c'' =>
            rw [List.cons_append] at hc2
            injection hc2 with e1 e2
            have hxmem : x ∈ w := by
              rw [hc1]
              exact List.mem_append_right _ (List.mem_cons_self x c'')
            have hsy : isSpaceChar y = true := husp y (List.mem_cons_self y usp')
            rw [e1, tok_not_space x (hw x hxmem)] at hsy
            cases hsy

theorem useInsteadCore_incomplete_inv (s : List Char)
    (h : useInsteadCore s = .incomplete) :
    countQ s ≤ 1 ∨ ∃ u3 usp q tok qc usp2 z2,
      s = u3 ++ (usp ++ (q :: (tok ++ qc :: (usp2 ++ z2)))) ∧
      u3.map Char.toLower = "use".toList ∧ allSpace usp ∧ usp ≠ [] ∧
      isQuoteChar q = true ∧ allTok tok ∧ isQuoteChar qc = true ∧
      allSpace usp2 ∧ (∃ w', "instead".toList = z2.map Char.toLower ++ w') := by
  rw [useInsteadCore] at h
  rcases andThen_incomplete_inv _ _ h with h1 | ⟨_, r1, h1, g1⟩
  · rcases litScan_incomplete_inv _ _ h1 with ⟨w', hw, hne⟩
    left
    rw [countQ_zero_of_lower_front s _ w' (by decide) hw]
    omega
  · rcases litScan_done_inv _ _ _ _ h1 with ⟨u3, rfl, hu3⟩
    have c3 : countQ u3 = 0 := countQ_zero_of_caseless u3 _ (by decide) hu3
    rcases andThen_incomplete_inv _ _ g1 with h2 | ⟨_, r2, h2, g2⟩
    · left
      rw [countQ_append, c3, countQ_zero_of_allSpace _ (sp1Scan_incomplete_inv _ h2)]
      omega
    · rcases sp1Scan_done_inv _ _ _ h2 with ⟨usp, rfl, husp, hspne⟩
      have csp : countQ usp = 0 := countQ_zero_of_allSpace _ husp
      rcases andThen_incomplete_inv _ _ g2 with h3 | ⟨_, r3, h3, g3⟩
      · left
        obtain rfl := quoteScan_incomplete_inv _ h3
        simp only [countQ_append, countQ_nil, c3, csp]
        omega
      · rcases quoteScan_done_inv _ _ _ h3 with ⟨q, rfl, hq⟩
        rcases andThen_incomplete_inv _ _ g3 with h4 | ⟨tok, r4, h4, g4⟩
        · left
          have htokr := tokQuoteScan_incomplete_inv _ h4
          simp only [countQ_append, countQ_cons, if_pos hq, c3, csp,
            countQ_zero_of_allTok _ htokr]
          omega
        · rcases tokQuoteScan_done_inv _ _ _ h4 with ⟨qc, rfl, htok, htokne, hqc⟩
          rcases andThen_incomplete_inv _ _ g4 with h5 | ⟨_, r5, h5, g5⟩
          · right
            refine ⟨u3, usp, q, tok, qc, r4, [], ?_, hu3, husp, hspne, hq, htok,
              hqc, sp1Scan_incomplete_inv _ h5, "instead".toList, rfl⟩
            rw [List.append_nil]
          · rcases sp1Scan_done_inv _ _ _ h5 with ⟨usp2, rfl, husp2, hspne2⟩
            rcases andThen_incomplete_inv _ _ g5 with h6 | ⟨_, r6, h6, g6⟩
            · rcases litScan_incomplete_inv _ _ h6 with ⟨w', hw, hne⟩
              right
              exact ⟨u3, usp, q, tok, qc, usp2, r5, rfl, hu3, husp, hspne, hq,
                htok, hqc, husp2, w', hw⟩
            · have g6' : ScanRes.done tok r6 = ScanRes.incomplete := g6
              cases g6'

/-- Wherever the `use X instead` scan reports `incomplete`, no suffix of
the remaining text completes it. -/
theorem useInsteadCore_noLater (c : Char) (cs : List Char)
    (h : useInsteadCore (c :: cs) = .incomplete) :
    ∀ v, v <:+ cs → ∀ a r, useInsteadCore v ≠ .done a r := by
  intro v hv a r hd
  rcases useInsteadCore_incomplete_inv _ h with hcnt | hshape
  · have h1 : countQ v ≤ 1 := le_trans (countQ_suffix_le v cs hv)
      (le_trans (countQ_suffix_le cs (c :: cs) (List.suffix_cons c cs)) hcnt)
    have h2 := useInsteadCore_done_countQ v a r hd
    omega
  · rcases hshape with ⟨u3, usp, q, tok, qc, usp2, z2, hsh, hu3, husp, hspne, hq,
      htok, hqc, husp2, w', hw7⟩
    rcases useInsteadCore_done_head v a r hd with ⟨x, xs, hvx, hxu⟩
    have hv' : v <:+ (c :: cs) := hv.trans (List.suffix_cons c cs)
    have hlen : v.length < (c :: cs).length :=
      Nat.lt_of_le_of_lt hv.length_le (by simp)
    rw [hsh] at hv' hlen
    rcases suffix_append_cases hv' with hv2 | ⟨v1, hs1, hne1, rfl⟩
    · rcases suffix_append_cases hv2 with hv3 | ⟨v1, hs1, hne1, rfl⟩
      · rcases List.suffix_cons_iff.mp hv3 with rfl | hv4
        · injection hvx with e1 e2
          have halpha := quote_not_lower_alpha q hq
          rw [e1, hxu] at halpha
          exact absurd halpha (by decide)
        · rcases suffix_append_cases hv4 with hv5 | ⟨v1, hs1, hne1, rfl⟩
          · rcases List.suffix_cons_iff.mp hv5 with rfl | hv6
            · injection hvx with e1 e2
              have halpha := quote_not_lower_alpha qc hqc
              rw [e1, hxu] at halpha
              exact absurd halpha (by decide)
            · rcases suffix_append_cases hv6 with hv7 | ⟨v1, hs1, hne1, rfl⟩
              · cases v with
                | nil => cases hvx
                | cons y ys =>
                    injection hvx with e1 e2
                    have hym : y ∈ z2 := hv7.subset (List.mem_cons_self y ys)
                    have hyl : y.toLower ∈ "instead".toList := by
                      rw [hw7]
                      exact List.mem_append_left _ (List.mem_map_of_mem _ hym)
                    rw [e1, hxu] at hyl
                    exact absurd hyl (by decide)
              · cases v1 with
                | nil => exact hne1 rfl
                | cons y ys =>
                    rw [List.cons_append] at hvx
                    injection hvx with e1 e2
                    have hsy : isSpaceChar y = true :=
                      husp2 y (hs1.subset (List.mem_cons_self y ys))
                    have halpha := space_toLower_not_alpha y hsy
                    rw [e1, hxu] at halpha
                    exact absurd halpha (by decide)
          · have hv1tok : allTok v1 := fun u hu => htok u (hs1.subset hu)
            exact useInsteadCore_not_done_mid v1 qc (usp2 ++ z2) hv1tok hqc a r hd
      · cases v1 with
        | nil => exact hne1 rfl
        | cons y ys =>
            rw [List.cons_append] at hvx
            injection hvx with e1 e2
            have hsy : isSpaceChar y = true :=
              husp y (hs1.subset (List.mem_cons_self y ys))
            have halpha := space_toLower_not_alpha y hsy
            rw [e1, hxu] at halpha
            exact absurd halpha (by decide)
    · by_cases hfull : v1.length = u3.length
      · have he : v1 = u3 := hs1.eq_of_length hfull
        subst he
        exact absurd hlen (lt_irrefl _)
      · have hplen : v1.length < u3.length := lt_of_le_of_ne hs1.length_le hfull
        cases v1 with
        | nil => exact hne1 rfl
        | cons y ys =>
            rw [List.cons_append] at hvx
            injection hvx with e1 e2
            have hmem := head_lower_mem_tail (y :: ys) u3 "use".toList y ys hs1
              hplen hu3 rfl
            rw [e1, hxu] at hmem
            exact absurd hmem (by decide)

/-- Full decomposition of a successful `don't use X` scan. -/
theorem dontUseCore_done_decomp (s : List Char) (a r : List Char)
    (h : dontUseCore s = .done a r) :
    ∃ ud uap ut usp uu usp2 q qc,
      s = ud ++ (uap ++ (ut ++ (usp ++ (uu ++ (usp2 ++ q :: (a ++ qc :: r)))))) ∧
      ud.map Char.toLower = "don".toList ∧ (∀ x ∈ uap, x = apostropheChar) ∧
      ut.map Char.toLower = "t".toList ∧ allSpace usp ∧ usp ≠ [] ∧
      uu.map Char.toLower = "use".toList ∧ allSpace usp2 ∧ usp2 ≠ [] ∧
      isQuoteChar q = true ∧ allTok a ∧ a ≠ [] ∧ isQuoteChar qc = true := by
  rw [dontUseCore] at h
  rcases andThen_done_inv _ _ _ _ h with ⟨_, r1, h1, g1⟩
  rcases andThen_done_inv _ _ _ _ g1 with ⟨_, r2, h2, g2⟩
  rcases andThen_done_inv _ _ _ _ g2 with ⟨_, r3, h3, g3⟩
  rcases andThen_done_inv _ _ _ _ g3 with ⟨_, r4, h4, g4⟩
  rcases andThen_done_inv _ _ _ _ g4 with ⟨_, r5, h5, g5⟩
  rcases andThen_done_inv _ _ _ _ g5 with ⟨_, r6, h6, g6⟩
  rcases andThen_done_inv _ _ _ _ g6 with ⟨_, r7, h7, g7⟩
  rcases litScan_done_inv _ _ _ _ h1 with ⟨ud, rfl, hud⟩
  rcases optAposScan_done_inv _ _ _ h2 with ⟨uap, rfl, hap, haplen⟩
  rcases litScan_done_inv _ _ _ _ h3 with ⟨ut, rfl, hut⟩
  rcases sp1Scan_done_inv _ _ _ h4 with ⟨usp, rfl, husp, hspne⟩
  rcases litScan_done_inv _ _ _ _ h5 with ⟨uu, rfl, huu⟩
  rcases sp1Scan_done_inv _ _ _ h6 with ⟨usp2, rfl, husp2, hspne2⟩
  rcases quoteScan_done_inv _ _ _ h7 with ⟨q, rfl, hq⟩
  rcases tokQuoteScan_done_inv _ _ _ g7 with ⟨qc, rfl, htok, htokne, hqc⟩
  exact ⟨ud, uap, ut, usp, uu, usp2, q, qc, rfl, hud, hap, hut, husp, hspne,
    huu, husp2, hspne2, hq, htok, htokne, hqc⟩

theorem dontUseCore_done_countQ (s : List Char) (a r : List Char)
    (h : dontUseCore s = .done a r) : 2 ≤ countQ s := by
  rcases dontUseCore_done_decomp s a r h with
    ⟨ud, uap, ut, usp, uu, usp2, q, qc, rfl, hud, hap, hut, husp, hspne,
      huu, husp2, hspne2, hq, htok, htokne, hqc⟩
  simp only [countQ_append, countQ_cons, if_pos hq, if_pos hqc]
  omega

theorem dontUseCore_done_head (s : List Char) (a r : List Char)
    (h : dontUseCore s = .done a r) :
    ∃ x xs, s = x :: xs ∧ x.toLower = 'd' := by
  rcases dontUseCore_done_decomp s a r h with
    ⟨ud, uap, ut, usp, uu, usp2, q, qc, hs, hud, _⟩
  cases ud with
  | nil => exact absurd hud (by decide)
  | cons x ud' =>
      exact ⟨x, _, by rw [hs, List.cons_append],
        map_lower_head x ud' _ 'd' ['o', 'n'] hud (by decide)⟩

theorem dontUseCore_incomplete_inv (s : List Char)
    (h : dontUseCore s = .incomplete) :
    countQ s ≤ 1 ∨ ∃ ud uap ut usp uu usp2 q tokr,
      s = ud ++ (uap ++ (ut ++ (usp ++ (uu ++ (usp2 ++ q :: tokr))))) ∧
      ud.map Char.toLower = "don".toList ∧ (∀ x ∈ uap, x = apostropheChar) ∧
      ut.map Char.toLower = "t".toList ∧ allSpace usp ∧ usp ≠ [] ∧
      uu.map Char.toLower = "use".toList ∧ allSpace usp2 ∧
      isQuoteChar q = true ∧ allTok tokr := by
  rw [dontUseCore] at h
  rcases andThen_incomplete_inv _ _ h with h1 | ⟨_, r1, h1, g1⟩
  · rcases litScan_incomplete_inv _ _ h1 with ⟨w', hw, hne⟩
    left
    rw [countQ_zero_of_lower_front s _ w' (by decide) hw]
    omega
  · rcases litScan_done_inv _ _ _ _ h1 with ⟨ud, rfl, hud⟩
    have cd : countQ ud = 0 := countQ_zero_of_caseless ud _ (by decide) hud
    rcases andThen_incomplete_inv _ _ g1 with h2 | ⟨_, r2, h2, g2⟩
    · left
      obtain rfl := optAposScan_incomplete_inv _ h2
      simp only [countQ_append, countQ_nil, cd]
      omega
    · rcases optAposScan_done_inv _ _ _ h2 with ⟨uap, rfl, hap, haplen⟩
      have cap : countQ uap ≤ 1 := le_trans (List.countP_le_length _) haplen
      rcases andThen_incomplete_inv _ _ g2 with h3 | ⟨_, r3, h3, g3⟩
      · rcases litScan_incomplete_inv _ _ h3 with ⟨w', hw, hne⟩
        left
        simp only [countQ_append, cd,
          countQ_zero_of_lower_front r2 _ w' (by decide) hw]
        omega
      · rcases litScan_done_inv _ _ _ _ h3 with ⟨ut, rfl, hut⟩
        have ct : countQ ut = 0 := countQ_zero_of_caseless ut _ (by decide) hut
        rcases andThen_incomplete_inv _ _ g3 with h4 | ⟨_, r4, h4, g4⟩
        · left
          simp only [countQ_append, cd, ct,
            countQ_zero_of_allSpace _ (sp1Scan_incomplete_inv _ h4)]
          omega
        · rcases sp1Scan_done_inv _ _ _ h4 with ⟨usp, rfl, husp, hspne⟩
          have csp : countQ usp = 0 := countQ_zero_of_allSpace _ husp
          rcases andThen_incomplete_inv _ _ g4 with h5 | ⟨_, r5, h5, g5⟩
          · rcases litScan_incomplete_inv _ _ h5 with ⟨w', hw, hne⟩
            left
            simp only [countQ_append, cd, ct, csp,
              countQ_zero_of_lower_front r4 _ w' (by decide) hw]
            omega
          · rcases litScan_done_inv _ _ _ _ h5 with ⟨uu, rfl, huu⟩
            have cu : countQ uu = 0 := countQ_zero_of_caseless uu _ (by decide) huu
            rcases andThen_incomplete_inv _ _ g5 with h6 | ⟨_, r6, h6, g6⟩
            · left
              simp only [countQ_append, cd, ct, csp, cu,
                countQ_zero_of_allSpace _ (sp1Scan_incomplete_inv _ h6)]
              omega
            · rcases sp1Scan_done_inv _ _ _ h6 with ⟨usp2, rfl, husp2, hspne2⟩
              have csp2 : countQ usp2 = 0 := countQ_zero_of_allSpace _ husp2
              rcases andThen_incomplete_inv _ _ g6 with h7 | ⟨_, r7, h7, g7⟩
              · left
                obtain rfl := quoteScan_incomplete_inv _ h7
                simp only [countQ_append, countQ_nil, cd, ct, csp, cu, csp2]
                omega
              · rcases quoteScan_done_inv _ _ _ h7 with ⟨q, rfl, hq⟩
                have htokr := tokQuoteScan_incomplete_inv _ g7
                right
                exact ⟨ud, uap, ut, usp, uu, usp2, q, r7, rfl, hud, hap, hut,
                  husp, hspne, huu, husp2, hq, htokr⟩

/-- Wherever the `don't use X` scan reports `incomplete`, no suffix of the
remaining text completes it. -/
theorem dontUseCore_noLater (c : Char) (cs : List Char)
    (h : dontUseCore (c :: cs) = .incomplete) :
    ∀ v, v <:+ cs → ∀ a r, dontUseCore v ≠ .done a r := by
  intro v hv a r hd
  rcases dontUseCore_incomplete_inv _ h with hcnt | hshape
  · have h1 : countQ v ≤ 1 := le_trans (countQ_suffix_le v cs hv)
      (le_trans (countQ_suffix_le cs (c :: cs) (List.suffix_cons c cs)) hcnt)
    have h2 := dontUseCore_done_countQ v a r hd
    omega
  · rcases hshape with ⟨ud, uap, ut, usp, uu, usp2, q, tokr, hsh, hud, hap, hut,
      husp, hspne, huu, husp2, hq, htokr⟩
    rcases dontUseCore_done_head v a r hd with ⟨x, xs, hvx, hxd⟩
    have hv' : v <:+ (c :: cs) := hv.trans (List.suffix_cons c cs)
    have hlen : v.length < (c :: cs).length :=
      Nat.lt_of_le_of_lt hv.length_le (by simp)
    rw [hsh] at hv' hlen
    rcases suffix_append_cases hv' with hv2 | ⟨v1, hs1, hne1, rfl⟩
    · rcases suffix_append_cases hv2 with hv3 | ⟨v1, hs1, hne1, rfl⟩
      · rcases suffix_append_cases hv3 with hv4 | ⟨v1, hs1, hne1, rfl⟩
        · rcases suffix_append_cases hv4 with hv5 | ⟨v1, hs1, hne1, rfl⟩
          · rcases suffix_append_cases hv5 with hv6 | ⟨v1, hs1, hne1, rfl⟩
            · rcases suffix_append_cases hv6 with hv7 | ⟨v1, hs1, hne1, rfl⟩
              · rcases List.suffix_cons_iff.mp hv7 with rfl | hv8
                · injection hvx with e1 e2
                  have halpha := quote_not_lower_alpha q hq
                  rw [e1, hxd] at halpha
                  exact absurd halpha (by decide)
                · have hcv : countQ v = 0 :=
                    countQ_zero_of_allTok v fun u hu => htokr u (hv8.subset hu)
                  have h2 := dontUseCore_done_countQ v a r hd
                  omega
              · cases v1 with
                | nil => exact hne1 rfl
                | cons y ys =>
                    rw [List.cons_append] at hvx
                    injection hvx with e1 e2
                    have hsy : isSpaceChar y = true :=
                      husp2 y (hs1.subset (List.mem_cons_self y ys))
                    have halpha := space_toLower_not_alpha y hsy
                    rw [e1, hxd] at halpha
                    exact absurd halpha (by decide)
            · cases v1 with
              | nil => exact hne1 rfl
              | cons y ys =>
                  rw [List.cons_append] at hvx
                  injection hvx with e1 e2
                  have hmem := head_lower_mem (y :: ys) uu "use".toList y ys hs1 huu rfl
                  rw [e1, hxd] at hmem
                  exact absurd hmem (by decide)
          · cases v1 with
            | nil => exact hne1 rfl
            | cons y ys =>
                rw [List.cons_append] at hvx
                injection hvx with e1 e2
                have hsy : isSpaceChar y = true :=
                  husp y (hs1.subset (List.mem_cons_self y ys))
                have halpha := space_toLower_not_alpha y hsy
                rw [e1, hxd] at halpha
                exact absurd halpha (by decide)
        · cases v1 with
          | nil => exact hne1 rfl
          | cons y ys =>
              rw [List.cons_append] at hvx
              injection hvx with e1 e2
              have hmem := head_lower_mem (y :: ys) ut "t".toList y ys hs1 hut rfl
              rw [e1, hxd] at hmem
              exact absurd hmem (by decide)
      · cases v1 with
        | nil => exact hne1 rfl
        | cons y ys =>
            rw [List.cons_append] at hvx
            injection hvx with e1 e2
            have hy : y = apostropheChar := hap y (hs1.subset (List.mem_cons_self y ys))
            rw [← e1, hy] at hxd
            exact absurd hxd (by decide)
    · by_cases hfull : v1.length = ud.length
      · have he : v1 = ud := hs1.eq_of_length hfull
        subst he
        exact absurd hlen (lt_irrefl _)
      · have hplen : v1.length < ud.length := lt_of_le_of_ne hs1.length_le hfull
        cases v1 with
        | nil => exact hne1 rfl
        | cons y ys =>
            rw [List.cons_append] at hvx
            injection hvx with e1 e2
            have hmem := head_lower_mem_tail (y :: ys) ud "don".toList y ys hs1
              hplen hud rfl
            rw [e1, hxd] at hmem
            exact absurd hmem (by decide)

theorem findInsteadOfQuoted_append (m t : List Char) (v : List Char)
    (h : findInsteadOfQuoted m = some v) : findInsteadOfQuoted (m ++ t) = some v := by
  rw [findInsteadOfQuoted] at h
  rw [findInsteadOfQuoted]
  exact scanFirst_append (withWb insteadOfCore)
    (withWb_stable insteadOfCore insteadOfCore_stable)
    (withWb_noLater insteadOfCore insteadOfCore_noLater) t none m v h

theorem findUseQuotedInstead_append (m t : List Char) (v : List Char)
    (h : findUseQuotedInstead m = some v) :
    findUseQuotedInstead (m ++ t) = some v := by
  rw [findUseQuotedInstead] at h
  rw [findUseQuotedInstead]
  exact scanFirst_append (withWb useInsteadCore)
    (withWb_stable useInsteadCore useInsteadCore_stable)
    (withWb_noLater useInsteadCore useInsteadCore_noLater) t none m v h

theorem findDontUseQuoted_append (m t : List Char) (v : List Char)
    (h : findDontUseQuoted m = some v) : findDontUseQuoted (m ++ t) = some v := by
  rw [findDontUseQuoted] at h
  rw [findDontUseQuoted]
  exact scanFirst_append (withWb dontUseCore)
    (withWb_stable dontUseCore dontUseCore_stable)
    (withWb_noLater dontUseCore dontUseCore_noLater) t none m v h

theorem findChangeQuotedTo_append (m t : List Char) (v : List Char)
    (h : findChangeQuotedTo m = some v) : findChangeQuotedTo (m ++ t) = some v := by
  rw [findChangeQuotedTo] at h
  rw [findChangeQuotedTo]
  exact scanFirst_append (withWb changeToCore)
    (withWb_stable changeToCore changeToCore_stable)
    (withWb_noLater changeToCore changeToCore_noLater) t none m v h

theorem ctxEntry_mono (message t : List Char) (lr : LastResponse)
    (sig : ContextAwareSignal)
    (hfm : ∀ cap, sig.findMatch message = some cap →
      sig.findMatch (message ++ t) = some cap) :
    ∀ b, (match sig.findMatch message with
          | none => (none : Option CtxMatch)
          | some cap =>
              some ({ weight := sig.weight, contextWeight := sig.contextWeight,
                      validated :=
                        match sig.responseCheck with
                        | none => true
                        | some chk => chk cap lr } : CtxMatch)) = some b →
         (match sig.findMatch (message ++ t) with
          | none => (none : Option CtxMatch)
          | some cap =>
              some ({ weight := sig.weight, contextWeight := sig.contextWeight,
                      validated :=
                        match sig.responseCheck with
                        | none => true
                        | some chk => chk cap lr } : CtxMatch)) = some b := by
  intro b hb
  rcases hm : sig.findMatch message with _ | cap
  · rw [hm] at hb
    simp at hb
  · rw [hm] at hb
    rw [hfm cap hm]
    exact hb

/-- Appending text that opens with a non-word character preserves every
context-aware signal match with its captured identifier and validation. -/
theorem matchContextAwareSignals_sublist (m t : List Char) (lr : LastResponse)
    (ht : nextIsWord t = false) :
    List.Sublist (matchContextAwareSignals m lr)
      (matchContextAwareSignals (m ++ t) lr) := by
  rw [matchContextAwareSignals, matchContextAwareSignals]
  refine filterMap_sublist_mono _ _ _ ?_
  intro sig hsig b hb
  refine ctxEntry_mono m t lr sig ?_ b hb
  intro cap hcap
  simp only [contextAwareSignals, List.mem_cons, List.not_mem_nil, or_false] at hsig
  rcases hsig with rfl | rfl | rfl | rfl | rfl | rfl | rfl | rfl
  · by_cases hre : reTest ctxRe1 m = true
    · have hcap' : some ([] : List Char) = some cap := by
        rw [← hcap]
        show _ = (if reTest ctxRe1 m = true then some ([] : List Char) else none)
        rw [if_pos hre]
      show (if reTest ctxRe1 (m ++ t) = true then some ([] : List Char) else none) = _
      rw [if_pos (reTest_append ctxRe1 m t ht hre), hcap']
    · have hcap' : (none : Option (List Char)) = some cap := by
        rw [← hcap]
        show _ = (if reTest ctxRe1 m = true then some ([] : List Char) else none)
        rw [if_neg hre]
      cases hcap'
  · by_cases hre : reTest ctxRe2 m = true
    · have hcap' : some ([] : List Char) = some cap := by
        rw [← hcap]
        show _ = (if reTest ctxRe2 m = true then some ([] : List Char) else none)
        rw [if_pos hre]
      show (if reTest ctxRe2 (m ++ t) = true then some ([] : List Char) else none) = _
      rw [if_pos (reTest_append ctxRe2 m t ht hre), hcap']
    · have hcap' : (none : Option (List Char)) = some cap := by
        rw [← hcap]
        show _ = (if reTest ctxRe2 m = true then some ([] : List Char) else none)
        rw [if_neg hre]
      cases hcap'
  · exact findInsteadOfQuoted_append m t cap hcap
  · exact findUseQuotedInstead_append m t cap hcap
  · by_cases hre : reTest ctxRe5 m = true
    · have hcap' : some ([] : List Char) = some cap := by
        rw [← hcap]
        show _ = (if reTest ctxRe5 m = true then some ([] : List Char) else none)
        rw [if_pos hre]
      show (if reTest ctxRe5 (m ++ t) = true then some ([] : List Char) else none) = _
      rw [if_pos (reTest_append ctxRe5 m t ht hre), hcap']
    · have hcap' : (none : Option (List Char)) = some cap := by
        rw [← hcap]
        show _ = (if reTest ctxRe5 m = true then some ([] : List Char) else none)
        rw [if_neg hre]
      cases hcap'
  · by_cases hre : reTest ctxRe6 m = true
    · have hcap' : some ([] : List Char) = some cap := by
        rw [← hcap]
        show _ = (if reTest ctxRe6 m = true then some ([] : List Char) else none)
        rw [if_pos hre]
      show (if reTest ctxRe6 (m ++ t) = true then some ([] : List Char) else none) = _
      rw [if_pos (reTest_append ctxRe6 m t ht hre), hcap']
    · have hcap' : (none : Option (List Char)) = some cap := by
        rw [← hcap]
        show _ = (if reTest ctxRe6 m = true then some ([] : List Char) else none)
        rw [if_neg hre]
      cases hcap'
  · exact findDontUseQuoted_append m t cap hcap
  · exact findChangeQuotedTo_append m t cap hcap

/-! ## Quoted-identifier collection survives an append -/

theorem dropWhile_append_of_nil (p : Char → Bool) (s t : List Char)
    (h : s.dropWhile p = []) : (s ++ t).dropWhile p = t.dropWhile p := by
  induction s with
  | nil => rfl
  | cons c cs ih =>
      by_cases hc : p c
      · rw [List.dropWhile_cons, if_pos hc] at h
        show (c :: (cs ++ t)).dropWhile p = _
        rw [List.dropWhile_cons, if_pos hc]
        exact ih h
      · rw [List.dropWhile_cons, if_neg hc] at h
        cases h

theorem scanQuoted_cons_notquote (c : Char) (cs : List Char)
    (hq : isQuoteChar c = false) : scanQuoted (c :: cs) = scanQuoted cs := by
  rw [scanQuoted, if_neg (by simp [hq])]

theorem scanQuoted_cons_nil (c : Char) (cs : List Char) (hq : isQuoteChar c = true)
    (hd : cs.dropWhile isTokChar = []) : scanQuoted (c :: cs) = scanQuoted cs := by
  rw [scanQuoted, if_pos hq]
  split
  · rfl
  · rename_i r' rs' heq
    rw [hd] at heq
    cases heq

theorem scanQuoted_cons_capture (c : Char) (cs : List Char) (hq : isQuoteChar c = true)
    (r : Char) (rs : List Char) (hd : cs.dropWhile isTokChar = r :: rs)
    (hcond : (!(cs.takeWhile isTokChar).isEmpty && isQuoteChar r) = true) :
    scanQuoted (c :: cs) = cs.takeWhile isTokChar :: scanQuoted rs := by
  rw [scanQuoted, if_pos hq]
  split
  · rename_i heq
    rw [hd] at heq
    cases heq
  · rename_i r' rs' heq
    rw [hd] at heq
    injection heq with e1 e2
    subst e1
    subst e2
    rw [if_pos hcond]

theorem scanQuoted_cons_nocapture (c : Char) (cs : List Char) (hq : isQuoteChar c = true)
    (r : Char) (rs : List Char) (hd : cs.dropWhile isTokChar = r :: rs)
    (hcond : (!(cs.takeWhile isTokChar).isEmpty && isQuoteChar r) = false) :
    scanQuoted (c :: cs) = scanQuoted cs := by
  rw [scanQuoted, if_pos hq]
  split
  · rfl
  · rename_i r' rs' heq
    rw [hd] at heq
    injection heq with e1 e2
    subst e1
    subst e2
    rw [if_neg (by simp [hcond])]

/-- A quoted identifier found in the message is still found after an
append whose first character is neither a token nor a quote character. -/
theorem scanQuoted_append_mem (c0 : Char) (t0 : List Char)
    (htok : isTokChar c0 = false) (htq : isQuoteChar c0 = false) :
    ∀ n m tok, m.length ≤ n → tok ∈ scanQuoted m →
      tok ∈ scanQuoted (m ++ c0 :: t0) := by
  intro n
  induction n with
  | zero =>
      intro m tok hlen hmem
      cases m with
      | nil => simp [scanQuoted] at hmem
      | cons c cs => simp at hlen
  | succ n ih =>
      intro m tok hlen hmem
      cases m with
      | nil => simp [scanQuoted] at hmem
      | cons c cs =>
          have hlcs : cs.length ≤ n := by
            simp at hlen
            omega
          rw [List.cons_append]
          by_cases hq : isQuoteChar c = true
          · rcases hd : cs.dropWhile isTokChar with _ | ⟨r, rs⟩
            · rw [scanQuoted_cons_nil c cs hq hd] at hmem
              have hdw : (cs ++ c0 :: t0).dropWhile isTokChar = c0 :: t0 := by
                rw [dropWhile_append_of_nil isTokChar cs _ hd, List.dropWhile_cons,
                  if_neg (by simp [htok])]
              have hcond : (!((cs ++ c0 :: t0).takeWhile isTokChar).isEmpty &&
                  isQuoteChar c0) = false := by
                rw [htq]
                exact Bool.and_false _
              rw [scanQuoted_cons_nocapture c (cs ++ c0 :: t0) hq c0 t0 hdw hcond]
              exact ih cs tok hlcs hmem
            · have hne : cs.dropWhile isTokChar ≠ [] := by
                rw [hd]
                simp
              rcases dropWhile_append_of_ne_nil isTokChar cs (c0 :: t0) hne with ⟨h1, h2⟩
              rw [hd] at h2
              by_cases hcond : (!(cs.takeWhile isTokChar).isEmpty && isQuoteChar r) = true
              · rw [scanQuoted_cons_capture c cs hq r rs hd hcond] at hmem
                have hcond' : (!((cs ++ c0 :: t0).takeWhile isTokChar).isEmpty &&
                    isQuoteChar r) = true := by
                  rw [h1]
                  exact hcond
                rw [scanQuoted_cons_capture c (cs ++ c0 :: t0) hq r (rs ++ c0 :: t0)
                  (by rw [h2, List.cons_append]) hcond']
                rw [h1]
                rcases List.mem_cons.mp hmem with rfl | hmem'
                · exact List.mem_cons_self _ _
                · have hrs : rs.length ≤ n := by
                    have hsub : List.Sublist (cs.dropWhile isTokChar) cs :=
                      List.dropWhile_sublist isTokChar
                    have hsl := hsub.length_le
                    rw [hd] at hsl
                    simp at hsl
                    omega
                  exact List.mem_cons_of_mem _ (ih rs tok hrs hmem')
              · have hcond0 : (!(cs.takeWhile isTokChar).isEmpty && isQuoteChar r) =
                    false := Bool.eq_false_iff.mpr hcond
                rw [scanQuoted_cons_nocapture c cs hq r rs hd hcond0] at hmem
                have hcond' : (!((cs ++ c0 :: t0).takeWhile isTokChar).isEmpty &&
                    isQuoteChar r) = false := by
                  rw [h1]
                  exact hcond0
                rw [scanQuoted_cons_nocapture c (cs ++ c0 :: t0) hq r (rs ++ c0 :: t0)
                  (by rw [h2, List.cons_append]) hcond']
                exact ih cs tok hlcs hmem
          · have hq0 : isQuoteChar c = false := Bool.eq_false_iff.mpr hq
            rw [scanQuoted_cons_notquote c cs hq0] at hmem
            rw [scanQuoted_cons_notquote c (cs ++ c0 :: t0) hq0]
            exact ih cs tok hlcs hmem

theorem getIdentifierReferenceBoost_append (m code : List Char) (lr : LastResponse)
    (h : 1 < getIdentifierReferenceBoost m lr) :
    1 < getIdentifierReferenceBoost (m ++ fencedBlock code) lr := by
  rw [getIdentifierReferenceBoost] at h
  rw [getIdentifierReferenceBoost]
  by_cases hce : lr.codeWritten.isEmpty = true
  · rw [if_pos hce] at h
    exact absurd h (by norm_num)
  · rw [if_neg hce] at h
    rw [if_neg hce]
    by_cases hany : (scanQuoted m).any
        (fun tok => (codeIdentifiers lr.codeWritten).contains tok) = true
    · have hany' : (scanQuoted (m ++ fencedBlock code)).any
          (fun tok => (codeIdentifiers lr.codeWritten).contains tok) = true := by
        rcases List.any_eq_true.mp hany with ⟨tok, htok1, hp⟩
        exact List.any_eq_true.mpr
          ⟨tok, scanQuoted_append_mem '\n'
            (backtickChar :: backtickChar :: backtickChar :: '\n' ::
              (code ++ '\n' :: backtickChar :: backtickChar :: backtickChar :: []))
            (by decide) (by decide) m.length m tok le_rfl htok1, hp⟩
      rw [if_pos hany']
      norm_num
    · rw [if_neg hany] at h
      exact absurd h (by norm_num)

/-! ## Monotonicity of the confidence formula under an appended block -/

theorem filter_sublist_mono {α : Type} (l : List α) (p q : α → Bool)
    (h : ∀ x ∈ l, p x = true → q x = true) :
    List.Sublist (l.filter p) (l.filter q) := by
  induction l with
  | nil => exact List.Sublist.refl _
  | cons x xs ih =>
      rw [List.filter_cons, List.filter_cons]
      have hxs := ih fun y hy => h y (List.mem_cons_of_mem x hy)
      by_cases hp : p x = true
      · rw [if_pos hp, if_pos (h x (List.mem_cons_self x xs) hp)]
        exact hxs.cons₂ x
      · rw [if_neg hp]
        by_cases hqx : q x = true
        · rw [if_pos hqx]
          exact hxs.cons x
        · rw [if_neg hqx]
          exact hxs

theorem sublist_sum_le (l1 l2 : List ℚ) (h : List.Sublist l1 l2)
    (hn : ∀ x ∈ l2, 0 ≤ x) : l1.sum ≤ l2.sum := by
  induction h with
  | slnil => exact le_refl 0
  | cons a h ih =>
      rename_i l1' l2'
      have h1 := ih fun x hx => hn x (List.mem_cons_of_mem a hx)
      have h2 := hn a (List.mem_cons_self a l2')
      rw [List.sum_cons]
      linarith
  | cons₂ a h ih =>
      rename_i l1' l2'
      have h1 := ih fun x hx => hn x (List.mem_cons_of_mem a hx)
      rw [List.sum_cons, List.sum_cons]
      linarith

theorem sublist_listMaxQ_le (l1 l2 : List ℚ) (h : List.Sublist l1 l2) :
    listMaxQ l1 ≤ listMaxQ l2 := by
  induction h with
  | slnil => exact le_refl _
  | cons a h ih => exact le_trans ih (le_max_right a _)
  | cons₂ a h ih => exact max_le_max (le_refl a) ih

theorem listMaxQ_le_sum (l : List ℚ) (h : ∀ x ∈ l, 0 ≤ x) : listMaxQ l ≤ l.sum := by
  induction l with
  | nil => exact le_refl 0
  | cons x xs ih =>
      have h1 := ih fun y hy => h y (List.mem_cons_of_mem x hy)
      have hx := h x (List.mem_cons_self x xs)
      have hsum : 0 ≤ xs.sum := List.sum_nonneg fun y hy => h y (List.mem_cons_of_mem x hy)
      show max x (listMaxQ xs) ≤ (x :: xs).sum
      rw [List.sum_cons]
      exact max_le (le_add_of_nonneg_right hsum) (le_trans h1 (le_add_of_nonneg_left hx))

theorem specMatchedWeights_nonneg (m : List Char) (r : Option LastResponse) :
    ∀ x ∈ specMatchedWeights m r, 0 ≤ x := by
  intro x hx
  cases r with
  | none =>
      simp only [specMatchedWeights, plainMatchedWeights] at hx
      rcases List.mem_map.mp hx with ⟨s, hs, rfl⟩
      exact correctionSignals_weight_nonneg s (List.mem_of_mem_filter hs)
  | some lr =>
      simp only [specMatchedWeights, plainMatchedWeights] at hx
      rcases List.mem_append.mp hx with hx | hx
      · rcases List.mem_map.mp hx with ⟨s, hs, rfl⟩
        exact correctionSignals_weight_nonneg s (List.mem_of_mem_filter hs)
      · rcases List.mem_map.mp hx with ⟨y, hy, rfl⟩
        exact chosenWeight_nonneg y (ctxMatch_weight_bounds m lr y hy)

theorem specContextBoost_nonneg (m : List Char) (r : Option LastResponse) :
    0 ≤ specContextBoost m r := by
  cases r with
  | none => exact le_refl 0
  | some lr =>
      simp only [specContextBoost]
      refine add_nonneg (List.sum_nonneg ?_) ?_
      · intro x hx
        rcases List.mem_map.mp hx with ⟨y, hy, rfl⟩
        have hb := ctxMatch_weight_bounds m lr y (List.mem_of_mem_filter hy)
        linarith [hb.2]
      · split
        · norm_num
        · exact le_refl 0

theorem specContextBoost_append_le (m code : List Char) (r : Option LastResponse) :
    specContextBoost m r ≤ specContextBoost (m ++ fencedBlock code) r := by
  cases r with
  | none => exact le_refl 0
  | some lr =>
      have ht := nextIsWord_fencedBlock code
      simp only [specContextBoost]
      have hS : (((matchContextAwareSignals m lr).filter fun x => x.validated).map
            fun x => x.contextWeight - x.weight).sum ≤
          (((matchContextAwareSignals (m ++ fencedBlock code) lr).filter
              fun x => x.validated).map fun x => x.contextWeight - x.weight).sum := by
        refine sublist_sum_le _ _
          (((matchContextAwareSignals_sublist m (fencedBlock code) lr ht).filter
            _).map _) ?_
        intro x hx
        rcases List.mem_map.mp hx with ⟨y, hy, rfl⟩
        have hb := ctxMatch_weight_bounds _ lr y (List.mem_of_mem_filter hy)
        linarith [hb.2]
      have hI : (if 1 < getIdentifierReferenceBoost m lr then (1:ℚ)/10 else 0) ≤
          (if 1 < getIdentifierReferenceBoost (m ++ fencedBlock code) lr
           then (1:ℚ)/10 else 0) := by
        by_cases hid : 1 < getIdentifierReferenceBoost m lr
        · rw [if_pos hid, if_pos (getIdentifierReferenceBoost_append m code lr hid)]
        · rw [if_neg hid]
          split
          · norm_num
          · exact le_refl 0
      exact add_le_add hS hI

theorem getCodeBoost_nonneg (m : List Char) : 0 ≤ getCodeBoost m := by
  rw [getCodeBoost]
  split
  · norm_num
  · split
    · norm_num
    · split
      · norm_num
      · norm_num

theorem getCodeBoost_le (m : List Char) : getCodeBoost m ≤ 13/10 := by
  rw [getCodeBoost]
  split
  · exact le_refl _
  · split
    · norm_num
    · split
      · norm_num
      · norm_num

theorem getCodeBoost_fenced (m code : List Char) :
    getCodeBoost (m ++ fencedBlock code) = 13/10 := by
  rw [getCodeBoost, if_pos (hasCodeBlock_append_fenced m code)]

theorem confFormula_mono (tw mw tw' mw' cb cb' B B' : ℚ)
    (hmw : mw ≤ mw') (htw : tw ≤ tw') (hmw0 : 0 ≤ mw') (hmwtw : mw' ≤ tw')
    (hcb : cb ≤ cb') (hcb0 : 0 ≤ cb) (hB : B ≤ B') :
    min ((mw + min ((tw - mw) * (3/10)) (2/10)) * cb + min B (25/100)) 1 ≤
    min ((mw' + min ((tw' - mw') * (3/10)) (2/10)) * cb' + min B' (25/100)) 1 := by
  have e : ∀ a b : ℚ, a + min ((b - a) * (3/10)) (2/10) =
      min ((7/10) * a + (3/10) * b) (a + 2/10) := by
    intro a b
    rw [← min_add_add_left]
    have he : a + (b - a) * (3/10) = (7/10) * a + (3/10) * b := by ring
    rw [he]
  have hbase : mw + min ((tw - mw) * (3/10)) (2/10) ≤
      mw' + min ((tw' - mw') * (3/10)) (2/10) := by
    rw [e, e]
    exact min_le_min (by linarith) (by linarith)
  have hbase0 : 0 ≤ mw' + min ((tw' - mw') * (3/10)) (2/10) := by
    have h1 : (0:ℚ) ≤ min ((tw' - mw') * (3/10)) (2/10) :=
      le_min (by linarith) (by norm_num)
    linarith
  exact min_le_min
    (add_le_add (mul_le_mul hbase hcb hcb0 hbase0) (min_le_min hB le_rfl)) le_rfl

theorem specConfidence_nonneg (m : List Char) (r : Option LastResponse) :
    0 ≤ specConfidence m r := by
  simp only [specConfidence]
  refine le_min (add_nonneg (mul_nonneg ?_ (getCodeBoost_nonneg m)) ?_) (by norm_num)
  · have h1 := listMaxQ_nonneg (specMatchedWeights m r)
    have h2 := listMaxQ_le_sum (specMatchedWeights m r) (specMatchedWeights_nonneg m r)
    have h3 : (0:ℚ) ≤ min (((specMatchedWeights m r).sum -
        listMaxQ (specMatchedWeights m r)) * (3/10)) (2/10) :=
      le_min (by linarith) (by norm_num)
    linarith
  · exact le_min (specContextBoost_nonneg m r) (by norm_num)

theorem specConfidence_append_le (m code : List Char) (r : Option LastResponse) :
    specConfidence m r ≤ specConfidence (m ++ fencedBlock code) r := by
  have ht : nextIsWord (fencedBlock code) = false := nextIsWord_fencedBlock code
  have hplain : List.Sublist (plainMatchedWeights m)
      (plainMatchedWeights (m ++ fencedBlock code)) := by
    simp only [plainMatchedWeights]
    exact (filter_sublist_mono correctionSignals _ _
      fun s hs hp => reTest_append s.pattern m _ ht hp).map _
  have hsub : List.Sublist (specMatchedWeights m r)
      (specMatchedWeights (m ++ fencedBlock code) r) := by
    cases r with
    | none => exact hplain
    | some lr =>
        exact hplain.append
          ((matchContextAwareSignals_sublist m (fencedBlock code) lr ht).map
            chosenWeight)
  have hnn := specMatchedWeights_nonneg (m ++ fencedBlock code) r
  have htw := sublist_sum_le _ _ hsub hnn
  have hmw := sublist_listMaxQ_le _ _ hsub
  have hmw0 := listMaxQ_nonneg (specMatchedWeights (m ++ fencedBlock code) r)
  have hmwtw := listMaxQ_le_sum (specMatchedWeights (m ++ fencedBlock code) r) hnn
  have hcb : getCodeBoost m ≤ getCodeBoost (m ++ fencedBlock code) := by
    rw [getCodeBoost_fenced]
    exact getCodeBoost_le m
  have hcb0 := getCodeBoost_nonneg m
  have hB := specContextBoost_append_le m code r
  simp only [specConfidence]
  exact confFormula_mono _ _ _ _ _ _ _ _ hmw htw hmw0 hmwtw hcb hcb0 hB

theorem analyzeMessage_confidence_nonneg (m : List Char) (r : Option LastResponse) :
    0 ≤ (analyzeMessage m r).confidence := by
  by_cases hlen : m.length < MIN_MESSAGE_LENGTH
  · rw [analyzeMessage, if_pos hlen]
  · by_cases hskip : skipMatches m = true
    · rw [analyzeMessage, if_neg hlen, if_pos hskip]
    · rw [analyzeMessage_confidence_spec m r (Nat.le_of_not_lt hlen)
        (Bool.eq_false_iff.mpr hskip)]
      exact specConfidence_nonneg m r

/-- C8 (amended): appending a fenced multi-line code block never lowers
the Scorer's confidence, provided the combined message trips no
skip-trigger regex. -/
theorem append_code_block_monotone (m code : List Char) (r : Option LastResponse)
    (hskip : skipMatches (m ++ fencedBlock code) = false) :
    (analyzeMessage m r).confidence ≤
      (analyzeMessage (m ++ fencedBlock code) r).confidence := by
  by_cases hlen2 : (m ++ fencedBlock code).length < MIN_MESSAGE_LENGTH
  · have hlen1 : m.length < MIN_MESSAGE_LENGTH := by
      have hle : m.length ≤ (m ++ fencedBlock code).length := by
        rw [List.length_append]
        omega
      omega
    rw [analyzeMessage, if_pos hlen1, analyzeMessage, if_pos hlen2]
  · by_cases hlen1 : m.length < MIN_MESSAGE_LENGTH
    · rw [analyzeMessage, if_pos hlen1]
      exact analyzeMessage_confidence_nonneg (m ++ fencedBlock code) r
    · have hskipm : skipMatches m = false := by
        cases hb : skipMatches m with
        | false => rfl
        | true =>
            have hc := skipMatches_append m (fencedBlock code)
              (nextIsWord_fencedBlock code) hb
            rw [hskip] at hc
            cases hc
      rw [analyzeMessage_confidence_spec m r (Nat.le_of_not_lt hlen1) hskipm,
          analyzeMessage_confidence_spec (m ++ fencedBlock code) r
            (Nat.le_of_not_lt hlen2) hskip]
      exact specConfidence_append_le m code r

section

attribute [local semireducible] Rat.mul Rat.inv Rat.add Rat.sub

/-- Witness for the amended C8: a benign code block appended to
`` "use `const` instead of `var`" `` keeps the skip gate closed and the
confidence rises from 0.805 to 0.91. -/
theorem append_code_block_witness :
    skipMatches (msgConstVar ++ fencedBlock ("let x = 1".toList)) = false ∧
    (analyzeMessage msgConstVar none).confidence ≤
      (analyzeMessage (msgConstVar ++ fencedBlock ("let x = 1".toList))
        none).confidence :=
  ⟨by decide,
   append_code_block_monotone msgConstVar ("let x = 1".toList) none (by decide)⟩

/-- C8 as frozen is false: a fenced block whose code mentions
`exception` trips the skip detector, so the extended message scores 0
while the original scores 0.805. -/
theorem append_code_block_skip_refutes :
    ¬ ((analyzeMessage msgConstVar none).confidence ≤
       (analyzeMessage (msgConstVar ++ fencedBlock ("throw exception".toList))
         none).confidence) := by
  decide

end
